import Mathlib

/-!
Verification of the bluebook-scrape extraction core (src/scraper.py, src/utils.py,
src/config.py) against its specification.

The Python code is shallowly embedded: BeautifulSoup markup nodes become the
`Node` inductive; tag/attribute/descendant lookups, sibling walks and structural
tag equality (bs4 `Tag.__eq__`) are modelled explicitly; Python strings are
`List Char` wrapped in `String`, with ASCII models of `str.lower`, `str.isupper`,
`str.title`, `str.strip`, `str.split` and of the regex character classes used by
`generate_id` (`\w` is modelled as ASCII `[A-Za-z0-9_]`).  The impure timestamp
`datetime.now()` read by `extract_document_metadata` is passed in explicitly as
a `now : String` argument.  All definitions are structurally recursive and
computable, so concrete runs evaluate by `rfl`/`decide`.
-/

namespace Bluebook

/-! ### Python string primitives (src/utils.py and str methods used) -/

/-- ASCII whitespace recognised by Python `str.split` / `str.strip`. -/
def isPySpace (c : Char) : Bool :=
  c = ' ' || c = '\t' || c = '\n' || c = '\r' || c = '\x0b' || c = '\x0c'

/-- Python `str.strip()` with no argument: drop leading and trailing whitespace. -/
def pyStrip (s : List Char) : List Char :=
  ((s.dropWhile isPySpace).reverse.dropWhile isPySpace).reverse

/-- Worker for Python `str.split()` (no separator): `cur` is the reversed
characters of the word currently being read. -/
def wordsAux (cur : List Char) : List Char → List (List Char)
  | [] => if cur = [] then [] else [cur.reverse]
  | c :: cs =>
    if isPySpace c then
      if cur = [] then wordsAux [] cs else cur.reverse :: wordsAux [] cs
    else wordsAux (c :: cur) cs

/-- Python `str.split()` with no separator: whitespace-separated words, empties
discarded. -/
def pyWords (s : List Char) : List (List Char) := wordsAux [] s

/-- Python `" ".join(ws)`. -/
def joinSpace : List (List Char) → List Char
  | [] => []
  | [w] => w
  | w :: ws => w ++ ' ' :: joinSpace ws

/-- `clean_text` on the character list of a non-None string:
`" ".join(text.strip().split())`. -/
def cleanL (s : List Char) : List Char := joinSpace (pyWords (pyStrip s))

/-- `src/utils.py` `clean_text(text)`: `None` and `""` short-circuit to `""`
(Python `if not text`), otherwise whitespace-normalize. -/
def clean_text : Option String → String
  | none => ""
  | some s => if s.data = [] then "" else ⟨cleanL s.data⟩

/-- `clean_text` as applied to the (never-None) results of `get_text()`. -/
def cleanS (l : List Char) : String := clean_text (some ⟨l⟩)

/-- No two adjacent spaces anywhere in the list (used to state that
`clean_text` collapses internal whitespace runs). -/
def noTwoSpaces : List Char → Bool
  | a :: b :: t => !(a = ' ' && b = ' ') && noTwoSpaces (b :: t)
  | _ => true

/-- ASCII model of Python's uppercase-letter test. -/
def isUpperA (c : Char) : Bool := 'A' ≤ c && c ≤ 'Z'

/-- ASCII model of Python's lowercase-letter test. -/
def isLowerA (c : Char) : Bool := 'a' ≤ c && c ≤ 'z'

/-- ASCII model of a cased character (letter). -/
def isAlphaA (c : Char) : Bool := isUpperA c || isLowerA c

/-- ASCII model of `str.lower` on one character. -/
def lowerChar (c : Char) : Char :=
  if isUpperA c then Char.ofNat (c.toNat + 32) else c

/-- ASCII model of `str.upper` on one character. -/
def upperChar (c : Char) : Char :=
  if isLowerA c then Char.ofNat (c.toNat - 32) else c

/-- Python `str.lower()`. -/
def pyLower (s : List Char) : List Char := s.map lowerChar

/-- Python `str.isupper()`: at least one cased character and no lowercase one. -/
def pyIsUpper (s : List Char) : Bool :=
  s.any isAlphaA && s.all (fun c => !isLowerA c)

/-- `str.isupper()` on a `String`. -/
def pyIsUpperS (s : String) : Bool := pyIsUpper s.data

/-- Worker for Python `str.title()`: `prevCased` says whether the previous
character was a letter. -/
def pyTitleAux (prevCased : Bool) : List Char → List Char
  | [] => []
  | c :: cs =>
    (if isAlphaA c then (if prevCased then lowerChar c else upperChar c) else c)
      :: pyTitleAux (isAlphaA c) cs

/-- Python `str.title()` (ASCII model). -/
def pyTitle (s : String) : String := ⟨pyTitleAux false s.data⟩

/-! ### Identifier generator (`generate_id`, src/scraper.py lines 284-292) -/

/-- ASCII model of the regex class `\w`: letters, digits, underscore. -/
def isWordChar (c : Char) : Bool := isAlphaA c || c.isDigit || c = '_'

/-- `re.sub(r'[^\w\s-]', '', s)`: keep only word characters, whitespace and
hyphens. -/
def subNonWord (s : List Char) : List Char :=
  s.filter (fun c => isWordChar c || isPySpace c || c = '-')

/-- Worker for `re.sub(r'[-\s]+', '_', s)`: replace each maximal run of
hyphens/whitespace by one underscore.  `inRun` says whether the previous
character was in such a run. -/
def collapseAux (inRun : Bool) : List Char → List Char
  | [] => []
  | c :: cs =>
    if isPySpace c || c = '-' then
      if inRun then collapseAux true cs else '_' :: collapseAux true cs
    else c :: collapseAux false cs

/-- `str.strip('_')`: drop leading and trailing underscores. -/
def stripUnders (s : List Char) : List Char :=
  ((s.dropWhile (fun c => c = '_')).reverse.dropWhile (fun c => c = '_')).reverse

/-- `generate_id(title)` (src/scraper.py 284-292): `'untitled'` for an empty
(falsy) title, otherwise lowercase, strip non-word characters, collapse
hyphen/whitespace runs to `_`, trim `_`.  Note the `'untitled'` fallback tests
the input, not the final result. -/
def generate_id (title : String) : String :=
  if title.data = [] then "untitled"
  else ⟨stripUnders (collapseAux false (subNonWord (pyLower title.data)))⟩

/-! ### Markup tree (the parsed-HTML input boundary)

A node is either a text node (bs4 `NavigableString`) or an element with a tag
name, the multi-valued `class` attribute, and children.  `class` is the only
attribute the scraper ever reads. -/

inductive Node where
  | text (s : String)
  | elem (tag : String) (classes : List String) (children : List Node)

/-! Decidable structural equality of nodes.  bs4 `Tag.__eq__` compares name,
attributes and contents recursively, so the `==` comparisons in
`process_sequential_content` and `extract_introduction_content` are exactly
this structural equality. -/
mutual
def nodeDecEq : (a b : Node) → Decidable (a = b)
  | .text a, .text b =>
    match String.decEq a b with
    | isTrue h => isTrue (by rw [h])
    | isFalse h => isFalse (fun e => h (Node.text.inj e))
  | .text _, .elem _ _ _ => isFalse (fun e => Node.noConfusion e)
  | .elem _ _ _, .text _ => isFalse (fun e => Node.noConfusion e)
  | .elem t c xs, .elem u d ys =>
    match String.decEq t u with
    | isFalse h => isFalse (fun e => h (Node.elem.inj e).1)
    | isTrue h1 =>
      match List.hasDecEq c d with
      | isFalse h => isFalse (fun e => h (Node.elem.inj e).2.1)
      | isTrue h2 =>
        match nodesDecEq xs ys with
        | isFalse h => isFalse (fun e => h (Node.elem.inj e).2.2)
        | isTrue h3 => isTrue (by rw [h1, h2, h3])
def nodesDecEq : (xs ys : List Node) → Decidable (xs = ys)
  | [], [] => isTrue rfl
  | [], _ :: _ => isFalse (fun e => List.noConfusion e)
  | _ :: _, [] => isFalse (fun e => List.noConfusion e)
  | x :: xs, y :: ys =>
    match nodeDecEq x y with
    | isFalse h => isFalse (fun e => h (List.cons.inj e).1)
    | isTrue h1 =>
      match nodesDecEq xs ys with
      | isFalse h => isFalse (fun e => h (List.cons.inj e).2)
      | isTrue h2 => isTrue (by rw [h1, h2])
end

instance : DecidableEq Node := nodeDecEq

/-- Whether a node is a tag (element); bs4 `find`/`find_all`/`find_next_sibling`
only ever return tags. -/
def isElem : Node → Bool
  | .elem _ _ _ => true
  | .text _ => false

/-! bs4 `get_text()`: concatenation of all string descendants in document
order. -/
mutual
def getText : Node → List Char
  | .text s => s.data
  | .elem _ _ cs => getTextL cs
def getTextL : List Node → List Char
  | [] => []
  | c :: cs => getText c ++ getTextL cs
end

/-! All descendant nodes (self excluded) in document (pre-)order; the search
space of bs4 `find` / `find_all`. -/
mutual
def descs : Node → List Node
  | .text _ => []
  | .elem _ _ cs => descsL cs
def descsL : List Node → List Node
  | [] => []
  | c :: cs => c :: (descs c ++ descsL cs)
end

/-- bs4 `element.find(...)` with a node predicate: first matching descendant. -/
def findFirst (pred : Node → Bool) (n : Node) : Option Node :=
  (descs n).find? pred

/-- bs4 `element.find_all(...)` with a node predicate: all matching
descendants, in document order. -/
def findAllD (pred : Node → Bool) (n : Node) : List Node :=
  (descs n).filter pred

/-- The `class="..."` attribute text inside a rendered start tag. -/
def renderClasses (cls : List String) : List Char :=
  if cls = [] then []
  else " class=".data ++ '"' :: joinSpace (cls.map String.data) ++ ['"']

/-! Serialization of a node, enough of `str(element)` for the substring tests
the classifier performs. -/
mutual
def render : Node → List Char
  | .text s => s.data
  | .elem t cls cs =>
    '<' :: t.data ++ renderClasses cls ++ '>' :: renderL cs ++ '<' :: '/' :: t.data ++ ['>']
def renderL : List Node → List Char
  | [] => []
  | c :: cs => render c ++ renderL cs
end

/-- Does `hay` start with `sub`? -/
def strStarts : List Char → List Char → Bool
  | _, [] => true
  | [], _ :: _ => false
  | a :: as, b :: bs => a == b && strStarts as bs

/-- Python `sub in hay` substring test. -/
def strHasSub : List Char → List Char → Bool
  | [], sub => strStarts [] sub
  | a :: hay, sub => strStarts (a :: hay) sub || strHasSub hay sub

/-- Node at a child-index path below `n` (`[]` is `n` itself).  Paths stand in
for bs4's parent/sibling links: the parent of the node at `p` is the node at
`p.dropLast`. -/
def getPath : Node → List Nat → Option Node
  | n, [] => some n
  | .text _, _ :: _ => none
  | .elem _ _ cs, i :: p =>
    match cs[i]? with
    | some c => getPath c p
    | none => none

/-! Paths of all proper descendants of a node, in document (pre-)order. -/
mutual
def nodePaths : Node → List (List Nat)
  | .text _ => []
  | .elem _ _ cs => nodePathsL 0 cs
def nodePathsL : Nat → List Node → List (List Nat)
  | _, [] => []
  | i, c :: cs => [i] :: ((nodePaths c).map (fun q => i :: q) ++ nodePathsL (i + 1) cs)
end

/-- Does the node at path `p` below `n` satisfy `pred`? -/
def predAt (pred : Node → Bool) (n : Node) (p : List Nat) : Bool :=
  match getPath n p with
  | some m => pred m
  | none => false

/-- Paths (document order) of all proper descendants satisfying `pred`;
path-level counterpart of `find_all`. -/
def pathsMatching (pred : Node → Bool) (n : Node) : List (List Nat) :=
  (nodePaths n).filter (predAt pred n)

/-- Per-child decomposition of `pathsMatching` on an element's child list,
used to reason about where section headers sit. -/
def pmAux (pred : Node → Bool) : Nat → List Node → List (List Nat)
  | _, [] => []
  | i, x :: xs =>
    (if pred x then [[i]] else []) ++ (pathsMatching pred x).map (fun q => i :: q)
      ++ pmAux pred (i + 1) xs

/-- Tag-name test (`find('svg')`, `find('table')`, `find('h2')`, ...). -/
def tagIs (t : String) (n : Node) : Bool :=
  match n with
  | .elem u _ _ => u == t
  | .text _ => false

/-- Tag-name plus class test (`find('h2', class_='text-3xl')`, ...); bs4
`class_` matches one entry of the multi-valued class attribute. -/
def tagClass (t cls : String) (n : Node) : Bool :=
  match n with
  | .elem u cl _ => u == t && cl.contains cls
  | .text _ => false

/-- The `class` attribute of a node (`element.get('class', [])`). -/
def classesOf : Node → List String
  | .elem _ c _ => c
  | .text _ => []

/-- The tag name of a node. -/
def tagOf : Node → String
  | .elem t _ _ => t
  | .text _ => ""

/-- Text at a child-index path (used for section-header titles). -/
def textAt (root : Node) (p : List Nat) : List Char :=
  match getPath root p with
  | some n => getText n
  | none => []

/-- `h2`-with-class-`text-3xl` test: a main section header. -/
def isHdrB (n : Node) : Bool := tagClass "h2" "text-3xl" n

/-- `div`-with-class-`leading-0` test: the main content container. -/
def isMainDivB (n : Node) : Bool := tagClass "div" "leading-0" n

/-! ### Document classifier (`classify_element_type`, src/scraper.py 138-184) -/

/-- The closed set of content kinds returned by `classify_element_type`
(source strings: `main_header`, `sub_header`, `example`, `table`, `content`,
`unknown`). -/
inductive EType where
  | mainH
  | subH
  | exampleT
  | tableT
  | contentT
  | unknownT
deriving DecidableEq

/-- The real-subheader test on a bold `h2` (src/scraper.py 160-169): ALL-CAPS
text, or an `uppercase` / `text-xxxxs` / `tracking-widest` marker in the joined
class string (Python substring test on `' '.join(classes)`). -/
def subHeaderTest (h2 : Node) : Bool :=
  let joined := joinSpace ((classesOf h2).map String.data)
  pyIsUpper (cleanL (getText h2)) || strHasSub joined "uppercase".data
    || strHasSub joined "text-xxxxs".data || strHasSub joined "tracking-widest".data

/-- Final classifier fallbacks (src/scraper.py 175-184): a `p.font-serif`
descendant, else cleaned flattened text longer than 5 characters. -/
def proseCheck (e : Node) : EType :=
  if (findFirst (tagClass "p" "font-serif") e).isSome then .contentT
  else if decide (cleanL (getText e) ≠ []) && decide (5 < (cleanL (getText e)).length) then
    .contentT
  else .unknownT

/-- `classify_element_type(element)` (src/scraper.py 138-184).  Text nodes are
never classified in any call path (bs4 sibling/`find_all` iteration yields only
tags), so they map to `unknown`. -/
def classify_element_type (e : Node) : EType :=
  match e with
  | .text _ => .unknownT
  | .elem tag classes _ =>
    if classes.contains "example" then .exampleT
    else if (findFirst (tagIs "svg") e).isSome && strHasSub (render e) "fill-blue-200".data then
      .exampleT
    else if tag == "table" || (findFirst (tagIs "table") e).isSome then .tableT
    else
      match findFirst (tagIs "h2") e with
      | some h2 =>
        if (classesOf h2).contains "text-3xl" then .mainH
        else if (classesOf h2).contains "font-bold" then
          if subHeaderTest h2 then .subH else .contentT
        else proseCheck e
      | none => proseCheck e

/-! ### Content blocks and sections (the dict shapes built by the scraper) -/

/-- The dict shapes returned by `extract_content_data` and built by
`process_element_sequentially`; field order mirrors the Python dict literals. -/
inductive Block where
  | mainHeaderB (title id : String)
  | subHeaderB (title id : String)
  | contentB (paragraphs : List String)
  | exampleB (citation : String)
  | tableB (headers : List String) (rows : List (List String))
  | subsectionB (title id : String) (content : List Block)

mutual
def blockDecEq : (a b : Block) → Decidable (a = b)
  | .mainHeaderB t i, .mainHeaderB u j =>
    match String.decEq t u, String.decEq i j with
    | isTrue h1, isTrue h2 => isTrue (by rw [h1, h2])
    | isFalse h, _ => isFalse (fun e => h (Block.mainHeaderB.inj e).1)
    | _, isFalse h => isFalse (fun e => h (Block.mainHeaderB.inj e).2)
  | .subHeaderB t i, .subHeaderB u j =>
    match String.decEq t u, String.decEq i j with
    | isTrue h1, isTrue h2 => isTrue (by rw [h1, h2])
    | isFalse h, _ => isFalse (fun e => h (Block.subHeaderB.inj e).1)
    | _, isFalse h => isFalse (fun e => h (Block.subHeaderB.inj e).2)
  | .contentB ps, .contentB qs =>
    match List.hasDecEq ps qs with
    | isTrue h => isTrue (by rw [h])
    | isFalse h => isFalse (fun e => h (Block.contentB.inj e))
  | .exampleB c, .exampleB d =>
    match String.decEq c d with
    | isTrue h => isTrue (by rw [h])
    | isFalse h => isFalse (fun e => h (Block.exampleB.inj e))
  | .tableB hs rs, .tableB is js =>
    match List.hasDecEq hs is, List.hasDecEq rs js with
    | isTrue h1, isTrue h2 => isTrue (by rw [h1, h2])
    | isFalse h, _ => isFalse (fun e => h (Block.tableB.inj e).1)
    | _, isFalse h => isFalse (fun e => h (Block.tableB.inj e).2)
  | .subsectionB t i c, .subsectionB u j d =>
    match String.decEq t u, String.decEq i j, blocksDecEq c d with
    | isTrue h1, isTrue h2, isTrue h3 => isTrue (by rw [h1, h2, h3])
    | isFalse h, _, _ => isFalse (fun e => h (Block.subsectionB.inj e).1)
    | _, isFalse h, _ => isFalse (fun e => h (Block.subsectionB.inj e).2.1)
    | _, _, isFalse h => isFalse (fun e => h (Block.subsectionB.inj e).2.2)
  | .mainHeaderB _ _, .subHeaderB _ _ => isFalse (fun e => Block.noConfusion e)
  | .mainHeaderB _ _, .contentB _ => isFalse (fun e => Block.noConfusion e)
  | .mainHeaderB _ _, .exampleB _ => isFalse (fun e => Block.noConfusion e)
  | .mainHeaderB _ _, .tableB _ _ => isFalse (fun e => Block.noConfusion e)
  | .mainHeaderB _ _, .subsectionB _ _ _ => isFalse (fun e => Block.noConfusion e)
  | .subHeaderB _ _, .mainHeaderB _ _ => isFalse (fun e => Block.noConfusion e)
  | .subHeaderB _ _, .contentB _ => isFalse (fun e => Block.noConfusion e)
  | .subHeaderB _ _, .exampleB _ => isFalse (fun e => Block.noConfusion e)
  | .subHeaderB _ _, .tableB _ _ => isFalse (fun e => Block.noConfusion e)
  | .subHeaderB _ _, .subsectionB _ _ _ => isFalse (fun e => Block.noConfusion e)
  | .contentB _, .mainHeaderB _ _ => isFalse (fun e => Block.noConfusion e)
  | .contentB _, .subHeaderB _ _ => isFalse (fun e => Block.noConfusion e)
  | .contentB _, .exampleB _ => isFalse (fun e => Block.noConfusion e)
  | .contentB _, .tableB _ _ => isFalse (fun e => Block.noConfusion e)
  | .contentB _, .subsectionB _ _ _ => isFalse (fun e => Block.noConfusion e)
  | .exampleB _, .mainHeaderB _ _ => isFalse (fun e => Block.noConfusion e)
  | .exampleB _, .subHeaderB _ _ => isFalse (fun e => Block.noConfusion e)
  | .exampleB _, .contentB _ => isFalse (fun e => Block.noConfusion e)
  | .exampleB _, .tableB _ _ => isFalse (fun e => Block.noConfusion e)
  | .exampleB _, .subsectionB _ _ _ => isFalse (fun e => Block.noConfusion e)
  | .tableB _ _, .mainHeaderB _ _ => isFalse (fun e => Block.noConfusion e)
  | .tableB _ _, .subHeaderB _ _ => isFalse (fun e => Block.noConfusion e)
  | .tableB _ _, .contentB _ => isFalse (fun e => Block.noConfusion e)
  | .tableB _ _, .exampleB _ => isFalse (fun e => Block.noConfusion e)
  | .tableB _ _, .subsectionB _ _ _ => isFalse (fun e => Block.noConfusion e)
  | .subsectionB _ _ _, .mainHeaderB _ _ => isFalse (fun e => Block.noConfusion e)
  | .subsectionB _ _ _, .subHeaderB _ _ => isFalse (fun e => Block.noConfusion e)
  | .subsectionB _ _ _, .contentB _ => isFalse (fun e => Block.noConfusion e)
  | .subsectionB _ _ _, .exampleB _ => isFalse (fun e => Block.noConfusion e)
  | .subsectionB _ _ _, .tableB _ _ => isFalse (fun e => Block.noConfusion e)
def blocksDecEq : (xs ys : List Block) → Decidable (xs = ys)
  | [], [] => isTrue rfl
  | [], _ :: _ => isFalse (fun e => List.noConfusion e)
  | _ :: _, [] => isFalse (fun e => List.noConfusion e)
  | x :: xs, y :: ys =>
    match blockDecEq x y with
    | isFalse h => isFalse (fun e => h (List.cons.inj e).1)
    | isTrue h1 =>
      match blocksDecEq xs ys with
      | isFalse h => isFalse (fun e => h (List.cons.inj e).2)
      | isTrue h2 => isTrue (by rw [h1, h2])
end

instance : DecidableEq Block := blockDecEq

/-- The `main_section` dict built by `process_sequential_content` (keys
`type`, `title`, `id`, `content`; there is no `order` key). -/
structure Section where
  title : String
  id : String
  content : List Block
deriving DecidableEq

/-! ### Content normalizers (`extract_content_data`, src/scraper.py 186-282) -/

/-- The per-paragraph filter `if text and len(text) > 10` used by the prose
normalizer. -/
def keepPara (l : List Char) : Option String :=
  if decide (l ≠ []) && decide (10 < l.length) then some ⟨l⟩ else none

/-- `extract_content_data(element, element_type)` (src/scraper.py 186-282).
Returns `none` exactly where the Python returns `None`; every returned dict is
non-empty, hence truthy, so `some` models truthiness faithfully. -/
def extract_content_data (e : Node) : EType → Option Block
  | .mainH =>
    match findFirst (tagClass "h2" "text-3xl") e with
    | some h2 =>
      some (.mainHeaderB (cleanS (getText h2)) (generate_id (cleanS (getText h2))))
    | none => some (.mainHeaderB "" "")
  | .subH =>
    let title0 :=
      match findFirst (tagClass "h2" "font-bold") e with
      | some h2 => cleanS (getText h2)
      | none => ""
    let title := if pyIsUpperS title0 then pyTitle title0 else title0
    some (.subHeaderB title (generate_id title))
  | .contentT =>
    let ps1 := (findAllD (tagClass "p" "font-serif") e).filterMap
      (fun p => keepPara (cleanL (getText p)))
    let ps2 :=
      if ps1 = [] then
        (findAllD (tagIs "p") e).filterMap (fun p => keepPara (cleanL (getText p)))
      else ps1
    let ps3 :=
      if ps2 = [] then
        if (findFirst (tagClass "div" "example") e).isNone
            && (findFirst (tagIs "table") e).isNone then
          (keepPara (cleanL (getText e))).toList
        else []
      else ps2
    if ps3 = [] then none else some (.contentB ps3)
  | .exampleT =>
    match findFirst (tagClass "div" "wysiwyg") e with
    | some d => some (.exampleB (cleanS (getText d)))
    | none => none
  | .tableT =>
    match (if tagOf e == "table" then some e else findFirst (tagIs "table") e) with
    | none => none
    | some t =>
      let headers :=
        match findFirst (tagIs "tr") t with
        | some r =>
          (findAllD (fun n => tagIs "th" n || tagIs "td" n) r).map
            (fun c => cleanS (getText c))
        | none => []
      let rows := ((findAllD (tagIs "tr") t).drop 1).filterMap (fun r =>
        let cells := (findAllD (fun n => tagIs "td" n || tagIs "th" n) r).map
          (fun c => cleanS (getText c))
        if cells.any (fun c => decide (pyStrip c.data ≠ [])) then some cells else none)
      some (.tableB headers rows)
  | .unknownT => none

/-! ### Sequential extractor (src/scraper.py 294-389) -/

/-- The append step of src/scraper.py 381-389: if the section's last content
entry is a subsection dict, the block goes into it, else it is appended to the
section's content directly. -/
def appendBlock (sec : Section) (b : Block) : Section :=
  match sec.content.getLast? with
  | some (.subsectionB t i c) =>
    { sec with content := sec.content.dropLast ++ [.subsectionB t i (c ++ [b])] }
  | _ => { sec with content := sec.content ++ [b] }

/-- `process_element_sequentially(element, current_section)`
(src/scraper.py 347-389), with the mutated section passed explicitly.  A
sub-header opens a fresh subsection dict at the end of the section's content;
any other extracted block is appended via `appendBlock`. -/
def process_element_sequentially (sec : Section) (e : Node) : Section :=
  match classify_element_type e with
  | .unknownT => sec
  | .subH =>
    match extract_content_data e .subH with
    | some (.subHeaderB t i) => { sec with content := sec.content ++ [.subsectionB t i []] }
    | _ => sec
  | ty =>
    match extract_content_data e ty with
    | none => sec
    | some b => appendBlock sec b

/-- The element siblings following the node at path `q`, in order: what
repeated `find_next_sibling()` yields (bs4 skips text nodes). -/
def siblingElemsAfter (root : Node) (q : List Nat) : List Node :=
  match q.getLast?, getPath root q.dropLast with
  | some i, some (.elem _ _ cs) => (cs.drop (i + 1)).filter isElem
  | _, _ => []

/-- The elements the section walk processes: siblings of the header's parent,
stopping at the first one structurally equal to `section_end` (bs4 `==` is
structural; comparison with `None` is always false). -/
def walkList (root : Node) (hp : List Nat) (endN : Option Node) : List Node :=
  (siblingElemsAfter root hp.dropLast).takeWhile (fun n =>
    match endN with
    | some z => !(decide (n = z))
    | none => true)

/-- One section body: fold the walked elements into a fresh section dict. -/
def walkSection (root : Node) (hp : List Nat) (endN : Option Node) (sec0 : Section) :
    Section :=
  (walkList root hp endN).foldl process_element_sequentially sec0

/-- Absolute paths of all `h2.text-3xl` headers inside the main container
(`main_content_div.find_all('h2', class_='text-3xl')`). -/
def habsOf (mcPath : List Nat) (mc : Node) : List (List Nat) :=
  (pathsMatching isHdrB mc).map (fun q => mcPath ++ q)

/-- Cleaned section titles of the headers. -/
def titlesOf (root : Node) (habs : List (List Nat)) : List String :=
  habs.map (fun p => cleanS (textAt root p))

/-- The `section_boundaries[...]['end']` values: parent of the following
header, `None` for the last header. -/
def endsOf (root : Node) (habs : List (List Nat)) : List (Option Node) :=
  (habs.drop 1).map (fun p => getPath root p.dropLast) ++ [none]

/-- Dict lookup in `section_boundaries`: Python dict insertion overwrites, so
the LAST entry with the looked-up title wins. -/
def lookupEnd (t : String) (bnds : List (String × Option Node)) : Option Node :=
  match bnds.reverse.find? (fun pr => pr.1 == t) with
  | some pr => pr.2
  | none => none

/-- One iteration of the section loop: headers with an empty cleaned title are
skipped (`if not section_title: continue`), every other header starts a fresh
section dict which is filled by the sibling walk. -/
def sectionStep (root : Node) (bnds : List (String × Option Node))
    (acc : List Section) (pt : List Nat × String) : List Section :=
  if pt.2 = "" then acc
  else acc ++ [walkSection root pt.1 (lookupEnd pt.2 bnds)
    { title := pt.2, id := generate_id pt.2, content := [] }]

/-- `process_sequential_content(main_content_div)` (src/scraper.py 294-345).
`root` is the whole soup and `mcPath` the path of the main container, since the
sibling walk uses parent links. -/
def process_sequential_content (root : Node) (mcPath : List Nat) : List Section :=
  match getPath root mcPath with
  | none => []
  | some mc =>
    let habs := habsOf mcPath mc
    let titles := titlesOf root habs
    ((habs.zip titles).foldl (sectionStep root (titles.zip (endsOf root habs))) [])

/-! ### Introduction extractor (src/scraper.py 391-416) -/

/-- One step of the introduction loop: only `content` and `example`
classifications contribute, and only when extraction succeeds. -/
def introStep (acc : List Block) (el : Node) : List Block :=
  match classify_element_type el with
  | .contentT =>
    match extract_content_data el .contentT with
    | some d => acc ++ [d]
    | none => acc
  | .exampleT =>
    match extract_content_data el .exampleT with
    | some d => acc ++ [d]
    | none => acc
  | _ => acc

/-- `extract_introduction_content(soup)` (src/scraper.py 391-416).  Note the
whole scan is guarded by `if first_section:`: with no `h2.text-3xl` in the main
container the function returns `[]` without collecting anything.  The scan
iterates ALL `div`/`p` descendants and stops at the first element equal to the
first header's parent or containing an `h2.text-3xl`. -/
def extract_introduction_content (root : Node) : List Block :=
  match (pathsMatching isMainDivB root).head? with
  | none => []
  | some mcP =>
    match getPath root mcP with
    | none => []
    | some mc =>
      match (pathsMatching isHdrB mc).head? with
      | none => []
      | some fsP =>
        let fsParent := getPath mc fsP.dropLast
        let scan := (descs mc).filter (fun el => tagIs "div" el || tagIs "p" el)
        let pref := scan.takeWhile (fun el =>
          !(match fsParent with
            | some z => decide (el = z)
            | none => false)
          && (findFirst isHdrB el).isNone)
        pref.foldl introStep []

/-! ### Metadata and the full parse (src/scraper.py 102-128, 418-447) -/

/-- The scraped-document metadata dict (src/scraper.py 104-110). -/
structure Metadata where
  title : String
  subtitle : String
  number : String
  scraped_at : String
  source_url : String
deriving DecidableEq

/-- `TARGET_URL` from src/config.py. -/
def TARGET_URL : String :=
  "https://www.legalbluebook.com/bluebook/v21/tables/t2-foreign-jurisdictions/t2-18-india"

/-- The (number, title, subtitle) triple `extract_document_metadata` reads
from the `h1`/`h3` inside `div.text-black-100` (src/scraper.py 112-126): with
two or more spans in the `h1`, the first is the table number and the second the
title, else the whole `h1` text is the title; an `h3` supplies the subtitle. -/
def metaTitles (root : Node) : String × String × String :=
  match findFirst (tagClass "div" "text-black-100") root with
  | none => ("", "", "")
  | some ts =>
    let nt :=
      match findFirst (tagIs "h1") ts with
      | none => ("", "")
      | some h1 =>
        match findAllD (tagIs "span") h1 with
        | s0 :: s1 :: _ => (cleanS (getText s0), cleanS (getText s1))
        | _ => ("", cleanS (getText h1))
    let sub :=
      match findFirst (tagIs "h3") ts with
      | some h3 => cleanS (getText h3)
      | none => ""
    (nt.1, nt.2, sub)

/-- `extract_document_metadata(soup)` (src/scraper.py 102-128); the impure
`datetime.now().isoformat()` is the explicit `now` argument, which the Python
stores only in `scraped_at`. -/
def extract_document_metadata (root : Node) (now : String) : Metadata :=
  { title := (metaTitles root).2.1, subtitle := (metaTitles root).2.2,
    number := (metaTitles root).1, scraped_at := now, source_url := TARGET_URL }

/-- The assembled `self.data['document']` value. -/
structure Document where
  meta : Metadata
  introduction : List Block
  content : List Section
deriving DecidableEq

/-- `parse_content(html)` (src/scraper.py 418-447).  When the main container
is missing the Python logs an error and returns early WITHOUT building a
document (`self.data` stays untouched); that early return is `none`. -/
def parse_content (root : Node) (now : String) : Option Document :=
  match (pathsMatching isMainDivB root).head? with
  | none => none
  | some mcP =>
    some { meta := extract_document_metadata root now,
           introduction := extract_introduction_content root,
           content := process_sequential_content root mcP }

/-! ### JSON shape of the emitted dicts (what `json.dump` serializes) -/

/-- JSON values, with object fields in insertion order like Python dicts. -/
inductive JValue where
  | jstr (s : String)
  | jarr (xs : List JValue)
  | jobj (fields : List (String × JValue))

/-! JSON rendering of blocks, mirroring the dict literals key-for-key. -/
mutual
def blockToJson : Block → JValue
  | .mainHeaderB t i =>
    .jobj [("type", .jstr "main_header"), ("title", .jstr t), ("id", .jstr i)]
  | .subHeaderB t i =>
    .jobj [("type", .jstr "sub_header"), ("title", .jstr t), ("id", .jstr i)]
  | .contentB ps =>
    .jobj [("type", .jstr "content"), ("paragraphs", .jarr (ps.map JValue.jstr))]
  | .exampleB c => .jobj [("type", .jstr "example"), ("citation", .jstr c)]
  | .tableB hs rs =>
    .jobj [("type", .jstr "table"), ("headers", .jarr (hs.map JValue.jstr)),
      ("rows", .jarr (rs.map (fun r => JValue.jarr (r.map JValue.jstr))))]
  | .subsectionB t i c =>
    .jobj [("type", .jstr "subsection"), ("title", .jstr t), ("id", .jstr i),
      ("content", .jarr (blocksToJson c))]
def blocksToJson : List Block → List JValue
  | [] => []
  | b :: bs => blockToJson b :: blocksToJson bs
end

/-- JSON rendering of a `main_section` dict: exactly the keys `type`, `title`,
`id`, `content`, in insertion order (src/scraper.py 322-327). -/
def sectionToJson (s : Section) : JValue :=
  .jobj [("type", .jstr "main_section"), ("title", .jstr s.title),
    ("id", .jstr s.id), ("content", .jarr (blocksToJson s.content))]

/-- Field lookup in a JSON object. -/
def jLookup (k : String) : JValue → Option JValue
  | .jobj fs =>
    match fs.find? (fun pr => pr.1 == k) with
    | some pr => some pr.2
    | none => none
  | _ => none

/-! ### Spec-side definitions used by individual claims -/

/-- Close the open-subsection cursor (spec 4.2): flush it as a trailing
subsection block. -/
def closeSub : Option (String × String × List Block) → List Block
  | none => []
  | some (t, i, c) => [.subsectionB t i c]

/-- Modelled from the spec, 4.3/4.2: attach one extracted block to the open
subsection if one is open, else directly to the section's emitted blocks. -/
def specAppend (st : List Block × Option (String × String × List Block)) (b : Block) :
    List Block × Option (String × String × List Block) :=
  match st.2 with
  | some (t, i, c) => (st.1, some (t, i, c ++ [b]))
  | none => (st.1 ++ [b], none)

/-- Modelled from the spec, 4.2: one step of the cursor-based extractor
state (emitted blocks, at most one open subsection).  A SubHeader closes any
open subsection and opens a new one; other extracted blocks attach to the open
subsection if there is one, else directly to the section. -/
def specStep (st : List Block × Option (String × String × List Block)) (e : Node) :
    List Block × Option (String × String × List Block) :=
  match classify_element_type e with
  | .unknownT => st
  | .subH =>
    match extract_content_data e .subH with
    | some (.subHeaderB t i) => (st.1 ++ closeSub st.2, some (t, i, []))
    | _ => st
  | ty =>
    match extract_content_data e ty with
    | none => st
    | some b => specAppend st b

/-- The invariant of the cursor refinement: while no subsection is open, no
emitted block is a subsection. -/
def noSubIn (st : List Block × Option (String × String × List Block)) : Prop :=
  st.2 = none → ∀ x ∈ st.1, ∀ t i c, x ≠ Block.subsectionB t i c

/-- Modelled from the spec, 4.2: the content sequence a section accumulates
over a sibling list, per the "current subsection" cursor discipline. -/
def specAssemble (es : List Node) : List Block :=
  let st := es.foldl specStep ([], none)
  st.1 ++ closeSub st.2

/-- No `h2.text-3xl` at or below this node. -/
def headerFreeB (n : Node) : Bool :=
  !isHdrB n && (descs n).all (fun d => !isHdrB d)

/-- The element nodes of a sibling list (what the walk can visit). -/
def elemsOf (l : List Node) : List Node := l.filter isElem

/-- The section produced by folding the elements of one section slice into a
fresh section dict. -/
def buildSection (t : String) (b : List Node) : Section :=
  (elemsOf b).foldl process_element_sequentially
    { title := t, id := generate_id t, content := [] }

/-- One section slice of the main container in flat layout: a header
container `div` (classes `cls`, children `before ++ hdr :: after`, where `hdr`
is the `h2.text-3xl` heading) followed by the sibling nodes `body` that carry
the section's content up to the next header container. -/
structure SecSpec where
  cls : List String
  before : List Node
  hdr : Node
  after : List Node
  body : List Node

/-- The header container node of a section slice. -/
def SecSpec.container (s : SecSpec) : Node :=
  .elem "div" s.cls (s.before ++ s.hdr :: s.after)

/-- The cleaned section title of a slice. -/
def SecSpec.title (s : SecSpec) : String := cleanS (getText s.hdr)

/-- The children of the main container contributed by a list of slices. -/
def c1Body (specs : List SecSpec) : List Node :=
  (specs.map (fun s => s.container :: s.body)).flatten

/-- The absolute header paths a flat slice list induces: slice `i` puts its
header at child index `offᵢ` (container) and `s.before.length` within it. -/
def hdrPathList (off : Nat) : List SecSpec → List (List Nat)
  | [] => []
  | s :: r => [off, s.before.length] :: hdrPathList (off + 1 + s.body.length) r

/-- The `section_boundaries` end value of a slice: the NEXT slice's container,
`none` for the last slice. -/
def nextEnd : List SecSpec → Option Node
  | s2 :: _ => some s2.container
  | [] => none

/-- The `(title, end)` pairs the boundaries dict holds for a slice list. -/
def bndsList : List SecSpec → List (String × Option Node)
  | [] => []
  | s :: r => (s.title, nextEnd r) :: bndsList r

/-- Each remaining slice's boundary lookup in the (global) dict returns its
own end value. -/
def lookupAligned : List SecSpec → List (String × Option Node) → Prop
  | [], _ => True
  | s :: r, bnds => lookupEnd s.title bnds = nextEnd r ∧ lookupAligned r bnds

/-! Flattening of emitted content in tree order, to count how often a block is
emitted. -/
mutual
def flattenBlock : Block → List Block
  | .subsectionB t i c => .subsectionB t i c :: flattenBlocks c
  | b => [b]
def flattenBlocks : List Block → List Block
  | [] => []
  | b :: bs => flattenBlock b ++ flattenBlocks bs
end

/-- All blocks of all sections, flattened in tree order. -/
def flattenSections (ss : List Section) : List Block :=
  (ss.map (fun s => flattenBlocks s.content)).flatten

/-! ### Concrete input trees for the claims' scenarios -/

/-- A section-header container: `div > h2.text-3xl`. -/
def hdrDiv (t : String) : Node := .elem "div" [] [.elem "h2" ["text-3xl"] [.text t]]

/-- A prose container: `div > p.font-serif`. -/
def proseDiv (t : String) : Node := .elem "div" [] [.elem "p" ["font-serif"] [.text t]]

/-- A subsection-header container: `div > h2.font-bold` with ALL-CAPS text. -/
def subHdrDiv (t : String) : Node := .elem "div" [] [.elem "h2" ["font-bold"] [.text t]]

/-- An example container: `div.example > div.wysiwyg`. -/
def exampleDiv (t : String) : Node :=
  .elem "div" ["example"] [.elem "div" ["wysiwyg"] [.text t]]

/-- A wrapped two-column table with one data row. -/
def tableDiv : Node :=
  .elem "div" [] [.elem "table" []
    [.elem "tr" [] [.elem "th" [] [.text "Reporter"], .elem "th" [] [.text "Date"]],
     .elem "tr" [] [.elem "td" [] [.text "All India Reporter"], .elem "td" [] [.text "1914"]]]]

/-- C2 scenario: [MainHeader "Cases", Prose A, SubHeader "STATUTES", Prose B,
Table T] inside the main container. -/
def c2root : Node :=
  .elem "div" ["leading-0"]
    [hdrDiv "Cases", proseDiv "Citation format for Indian cases.",
     subHdrDiv "STATUTES", proseDiv "Statutes are cited by year and number.", tableDiv]

/-- C1 counterexample: two sections with the SAME title "Cases"; the
`section_boundaries` dict keyed by title is overwritten, so the first section's
walk runs past the second header. -/
def c1root : Node :=
  .elem "div" ["leading-0"]
    [hdrDiv "Cases", proseDiv "First section paragraph text.",
     hdrDiv "Cases", proseDiv "Second section paragraph text."]

/-- A concrete first slice (section "Cases") for the flat-layout theorem. -/
def c1specA : SecSpec :=
  ⟨[], [], .elem "h2" ["text-3xl"] [.text "Cases"], [],
    [proseDiv "First section paragraph text."]⟩

/-- A concrete second slice (section "Legislation") for the flat-layout
theorem. -/
def c1specB : SecSpec :=
  ⟨[], [], .elem "h2" ["text-3xl"] [.text "Legislation"], [],
    [proseDiv "Second section paragraph text."]⟩

/-- C6 scenario: one MainHeader "Cases" followed by one Example node. -/
def c6root : Node :=
  .elem "html" []
    [.elem "div" ["leading-0"]
      [hdrDiv "Cases", exampleDiv "Union Carbide v. India, AIR 1990 SC 273"]]

/-- C3: header row plus one non-empty data row. -/
def c3tblGood : Node :=
  .elem "table" []
    [.elem "tr" [] [.elem "th" [] [.text "Reporter"], .elem "th" [] [.text "Date"],
       .elem "th" [] [.text "Format"]],
     .elem "tr" [] [.elem "td" [] [.text "All India Reporter"], .elem "td" [] [.text "1914"],
       .elem "td" [] [.text "AIR"]]]

/-- C3: header row whose only data row is `["", "", ""]`. -/
def c3tblEmptyRow : Node :=
  .elem "table" []
    [.elem "tr" [] [.elem "th" [] [.text "A"], .elem "th" [] [.text "B"],
       .elem "th" [] [.text "C"]],
     .elem "tr" [] [.elem "td" [] [.text ""], .elem "td" [] [.text ""],
       .elem "td" [] [.text ""]]]

/-- C5: an 8-character paragraph. -/
def c5short : Node := .elem "div" [] [.elem "p" ["font-serif"] [.text "12345678"]]

/-- C5: an 11-character paragraph. -/
def c5long : Node := .elem "div" [] [.elem "p" ["font-serif"] [.text "12345678901"]]

/-- C5: an example node whose rich-content container holds only whitespace. -/
def c5emptyEx : Node := .elem "div" ["example"] [.elem "div" ["wysiwyg"] [.text "   "]]

/-- C7: a main container with qualifying prose but zero MainHeaders. -/
def c7root : Node :=
  .elem "html" []
    [.elem "div" ["leading-0"] [proseDiv "Introductory paragraph before sections."]]

/-- C8: a small document with a main container and one section. -/
def c8root : Node :=
  .elem "html" []
    [.elem "div" ["leading-0"]
      [hdrDiv "Legislation", proseDiv "Statutes of India are cited as follows."]]

/-- C9: a document with no `div.leading-0` main container. -/
def c9root : Node := .elem "html" [] [.elem "div" ["content"] [.text "no main container"]]

/-- The document `parse_content c8root` produces at capture time
2025-01-01T00:00:00. -/
def c8docA : Document :=
  ⟨⟨"", "", "", "2025-01-01T00:00:00", TARGET_URL⟩, [],
    [⟨"Legislation", "legislation", [.contentB ["Statutes of India are cited as follows."]]⟩]⟩

/-- The document `parse_content c8root` produces at capture time
2025-01-02T00:00:00. -/
def c8docB : Document :=
  ⟨⟨"", "", "", "2025-01-02T00:00:00", TARGET_URL⟩, [],
    [⟨"Legislation", "legislation", [.contentB ["Statutes of India are cited as follows."]]⟩]⟩

/-! ### Helper lemmas: paths and descendants -/

theorem mem_nodePathsL_iff : ∀ (cs : List Node) (i : Nat) (p : List Nat),
    p ∈ nodePathsL i cs ↔
      ∃ k c q, p = (i + k) :: q ∧ cs[k]? = some c ∧ (q = [] ∨ q ∈ nodePaths c) := by
  intro cs
  induction cs with
  | nil => intro i p; simp [nodePathsL]
  | cons c cs ih =>
    intro i p
    rw [nodePathsL]
    constructor
    · intro h
      rcases List.mem_cons.mp h with rfl | h2
      · refine ⟨0, c, [], by simp, ?_, Or.inl rfl⟩
        simp
      rcases List.mem_append.mp h2 with h3 | h4
      · obtain ⟨q, hq, rfl⟩ := List.mem_map.mp h3
        refine ⟨0, c, q, by simp, ?_, Or.inr hq⟩
        simp
      · obtain ⟨k, c', q, rfl, hk, hq⟩ := (ih (i + 1) p).mp h4
        refine ⟨k + 1, c', q, by rw [show i + (k + 1) = i + 1 + k by omega], ?_, hq⟩
        simpa using hk
    · rintro ⟨k, c', q, rfl, hk, hq⟩
      cases k with
      | zero =>
        simp only [List.getElem?_cons_zero, Option.some.injEq] at hk
        subst hk
        rcases hq with rfl | hq
        · exact List.mem_cons_self _ _
        · exact List.mem_cons_of_mem _ (List.mem_append_left _ (List.mem_map_of_mem _ hq))
      | succ k =>
        refine List.mem_cons_of_mem _ (List.mem_append_right _ ?_)
        refine (ih (i + 1) _).mpr ⟨k, c', q, by rw [show i + (k + 1) = i + 1 + k by omega], ?_, hq⟩
        simpa using hk

theorem mem_descsL_iff : ∀ (cs : List Node) (d : Node),
    d ∈ descsL cs ↔ ∃ (k : Nat) (c : Node), cs[k]? = some c ∧ (d = c ∨ d ∈ descs c) := by
  intro cs
  induction cs with
  | nil => intro d; simp [descsL]
  | cons c cs ih =>
    intro d
    rw [descsL]
    constructor
    · intro h
      rcases List.mem_cons.mp h with rfl | h2
      · refine ⟨0, d, ?_, Or.inl rfl⟩
        simp
      rcases List.mem_append.mp h2 with h3 | h4
      · refine ⟨0, c, ?_, Or.inr h3⟩
        simp
      · obtain ⟨k, c', hk, hd⟩ := (ih d).mp h4
        refine ⟨k + 1, c', ?_, hd⟩
        simpa using hk
    · rintro ⟨k, c', hk, hd⟩
      cases k with
      | zero =>
        simp only [List.getElem?_cons_zero, Option.some.injEq] at hk
        subst hk
        rcases hd with rfl | hd
        · exact List.mem_cons_self _ _
        · exact List.mem_cons_of_mem _ (List.mem_append_left _ hd)
      | succ k =>
        refine List.mem_cons_of_mem _ (List.mem_append_right _ ?_)
        refine (ih d).mpr ⟨k, c', ?_, hd⟩
        simpa using hk

theorem nodePaths_getPath : ∀ (q : List Nat) (n : Node), q ∈ nodePaths n →
    ∃ d ∈ descs n, getPath n q = some d := by
  intro q
  induction q with
  | nil =>
    intro n h
    exfalso
    cases n with
    | text s => simp [nodePaths] at h
    | elem t cl cs =>
      rw [nodePaths] at h
      obtain ⟨k, c, q, heq, _, _⟩ := (mem_nodePathsL_iff cs 0 _).mp h
      exact List.noConfusion heq
  | cons j q ih =>
    intro n h
    cases n with
    | text s => simp [nodePaths] at h
    | elem t cl cs =>
      rw [nodePaths] at h
      obtain ⟨k, c, q', heq, hk, hq⟩ := (mem_nodePathsL_iff cs 0 _).mp h
      have hjk : j = k := by
        injection heq with h1 h2
        omega
      have hqq : q' = q := by
        injection heq with h1 h2
        exact h2.symm
      subst hjk
      subst hqq
      rcases hq with rfl | hq
      · refine ⟨c, (mem_descsL_iff cs c).mpr ⟨j, c, hk, Or.inl rfl⟩, ?_⟩
        simp [getPath, hk]
      · obtain ⟨d, hd, hgp⟩ := ih c hq
        refine ⟨d, (mem_descsL_iff cs d).mpr ⟨j, c, hk, Or.inr hd⟩, ?_⟩
        simp [getPath, hk, hgp]

mutual
theorem descs_subpath : ∀ (n d : Node), d ∈ descs n →
    ∃ q ∈ nodePaths n, getPath n q = some d
  | .text _, d => by simp [descs, descsL]
  | .elem t cl cs, d => by
    intro h
    rw [descs] at h
    obtain ⟨k, c, q, hk, hq, hd⟩ := descsL_subpath cs d h
    refine ⟨k :: q, ?_, ?_⟩
    · rw [nodePaths]
      exact (mem_nodePathsL_iff cs 0 _).mpr ⟨k, c, q, by simp, hk, hq⟩
    · rcases hd with ⟨rfl, rfl⟩ | hgp
      · simp [getPath, hk]
      · simp [getPath, hk, hgp]
theorem descsL_subpath : ∀ (cs : List Node) (d : Node), d ∈ descsL cs →
    ∃ (k : Nat) (c : Node) (q : List Nat), cs[k]? = some c ∧ (q = [] ∨ q ∈ nodePaths c) ∧
      ((q = [] ∧ c = d) ∨ getPath c q = some d)
  | [], d => by simp [descsL]
  | c :: cs, d => by
    intro h
    rw [descsL] at h
    rcases List.mem_cons.mp h with rfl | h2
    · refine ⟨0, d, [], ?_, Or.inl rfl, Or.inl ⟨rfl, rfl⟩⟩
      simp
    rcases List.mem_append.mp h2 with h3 | h4
    · obtain ⟨q, hq, hgp⟩ := descs_subpath c d h3
      refine ⟨0, c, q, ?_, Or.inr hq, Or.inr hgp⟩
      simp
    · obtain ⟨k, c', q, hk, hq, hd⟩ := descsL_subpath cs d h4
      refine ⟨k + 1, c', q, ?_, hq, hd⟩
      simpa using hk
end

theorem pathsMatching_nil_iff (pred : Node → Bool) (n : Node) :
    pathsMatching pred n = [] ↔ ∀ d ∈ descs n, pred d = false := by
  rw [pathsMatching, List.filter_eq_nil_iff]
  constructor
  · intro h d hd
    obtain ⟨q, hq, hgp⟩ := descs_subpath n d hd
    have h2 := h q hq
    rw [predAt, hgp] at h2
    simpa using h2
  · intro h q hq
    obtain ⟨d, hd, hgp⟩ := nodePaths_getPath q n hq
    rw [predAt, hgp]
    simp [h d hd]

/-! ### Helper lemmas: generate_id -/

theorem head?_dropWhile_false {α : Type} (p : α → Bool) :
    ∀ (l : List α) (a : α), (l.dropWhile p).head? = some a → p a = false := by
  intro l
  induction l with
  | nil => intro a h; simp [List.dropWhile] at h
  | cons c t ih =>
    intro a h
    by_cases hc : p c
    · rw [List.dropWhile_cons_of_pos hc] at h
      exact ih a h
    · rw [List.dropWhile_cons_of_neg hc] at h
      simp only [List.head?_cons, Option.some.injEq] at h
      rw [← h]
      simpa using hc

theorem mem_stripUnders {c : Char} {s : List Char} (h : c ∈ stripUnders s) : c ∈ s := by
  unfold stripUnders at h
  rw [List.mem_reverse] at h
  have h2 := (List.dropWhile_sublist _).subset h
  rw [List.mem_reverse] at h2
  exact (List.dropWhile_sublist _).subset h2

theorem stripUnders_getLast {s : List Char} {a : Char}
    (h : (stripUnders s).getLast? = some a) : a ≠ '_' := by
  unfold stripUnders at h
  rw [List.getLast?_reverse] at h
  have := head?_dropWhile_false _ _ _ h
  simpa using this

theorem rev_dropWhile_rev_append (p : Char → Bool) (l : List Char) :
    (l.reverse.dropWhile p).reverse ++ (l.reverse.takeWhile p).reverse = l := by
  have h2 := congrArg List.reverse (List.takeWhile_append_dropWhile p l.reverse)
  rw [List.reverse_append, List.reverse_reverse] at h2
  exact h2

theorem stripUnders_head {s : List Char} {a : Char}
    (h : (stripUnders s).head? = some a) : a ≠ '_' := by
  have ht := rev_dropWhile_rev_append (fun c => decide (c = '_'))
      (s.dropWhile (fun c => decide (c = '_')))
  have hs : stripUnders s
      = ((s.dropWhile (fun c => decide (c = '_'))).reverse.dropWhile
          (fun c => decide (c = '_'))).reverse := rfl
  rw [hs] at h
  have hrhead : (s.dropWhile (fun c => decide (c = '_'))).head? = some a := by
    rw [← ht, List.head?_append, h]
    rfl
  have h3 := head?_dropWhile_false (fun c => decide (c = '_')) s a hrhead
  simpa using h3

theorem mem_collapseAux {c : Char} : ∀ (b : Bool) (l : List Char), c ∈ collapseAux b l →
    c = '_' ∨ (c ∈ l ∧ isPySpace c = false ∧ c ≠ '-') := by
  intro b l
  induction l generalizing b with
  | nil => simp [collapseAux]
  | cons x t ih =>
    intro h
    unfold collapseAux at h
    by_cases hx : (isPySpace x || decide (x = '-')) = true
    · rw [if_pos hx] at h
      by_cases hb : b
      · subst hb
        rw [if_pos rfl] at h
        rcases ih true h with h1 | ⟨h2, h3, h4⟩
        · exact Or.inl h1
        · exact Or.inr ⟨List.mem_cons_of_mem _ h2, h3, h4⟩
      · simp only [Bool.not_eq_true] at hb
        subst hb
        rw [if_neg (by simp)] at h
        rcases List.mem_cons.mp h with rfl | h2
        · exact Or.inl rfl
        rcases ih true h2 with h1 | ⟨h2, h3, h4⟩
        · exact Or.inl h1
        · exact Or.inr ⟨List.mem_cons_of_mem _ h2, h3, h4⟩
    · rw [if_neg hx] at h
      rcases List.mem_cons.mp h with rfl | h2
      · simp only [Bool.or_eq_true, not_or, Bool.not_eq_true] at hx
        refine Or.inr ⟨List.mem_cons_self _ _, hx.1, ?_⟩
        intro hc
        have := hx.2
        rw [hc] at this
        simp at this
      rcases ih false h2 with h1 | ⟨h2, h3, h4⟩
      · exact Or.inl h1
      · exact Or.inr ⟨List.mem_cons_of_mem _ h2, h3, h4⟩

theorem generate_id_chars (t : String) :
    (∀ c ∈ (generate_id t).data, isWordChar c = true) ∧
      (generate_id t).data.head? ≠ some '_' ∧
      (generate_id t).data.getLast? ≠ some '_' := by
  unfold generate_id
  by_cases ht : t.data = []
  · rw [if_pos ht]
    refine ⟨?_, ?_, ?_⟩ <;> decide
  · rw [if_neg ht]
    refine ⟨?_, ?_, ?_⟩
    · intro c hc
      have h1 := mem_stripUnders hc
      rcases mem_collapseAux _ _ h1 with h | ⟨h2, h3, h4⟩
      · subst h; decide
      · rw [subNonWord, List.mem_filter] at h2
        have hkeep := h2.2
        rw [h3] at hkeep
        simp only [Bool.or_false, Bool.false_or, Bool.or_eq_true, decide_eq_true_eq] at hkeep
        rcases hkeep with hk | hk
        · exact hk
        · exact absurd hk h4
    · intro hh
      exact stripUnders_head hh rfl
    · intro hh
      exact stripUnders_getLast hh rfl

/-! ### Claim theorems -/

/-- C4 (corrected).  `generate_id` lowercases, strips characters outside
`[\w\s-]`, collapses hyphen/whitespace runs to single underscores and trims
underscores; the literal `"untitled"` is returned exactly when the INPUT title
is empty, so a non-empty title that strips to nothing (e.g. `"!!!"`) yields the
empty string, not `"untitled"`.  The three spec examples hold, and every
character of any result is a word character with no leading or trailing
underscore. -/
theorem c4_slug_amended :
    generate_id "" = "untitled" ∧
    generate_id "Statutes and Ordinances" = "statutes_and_ordinances" ∧
    generate_id "AIR!!" = "air" ∧
    generate_id "!!!" = "" ∧
    ∀ t : String, (∀ c ∈ (generate_id t).data, isWordChar c = true) ∧
      (generate_id t).data.head? ≠ some '_' ∧
      (generate_id t).data.getLast? ≠ some '_' :=
  ⟨rfl, rfl, rfl, rfl, fun t => generate_id_chars t⟩

/-- C4 counterexample: the identifier generator CAN return the empty string;
`generate_id "!!!"` is `""`, not the claimed `"untitled"`. -/
theorem c4_slug_cex : generate_id "!!!" = "" ∧ generate_id "!!!" ≠ "untitled" :=
  ⟨rfl, by decide⟩

/-- C9 (corrected).  When the main `div.leading-0` container is absent,
`parse_content` logs and returns early WITHOUT building any document
(`self.data` keeps no `document` entry), rather than returning an empty
Document; and this is the only condition under which no document is produced:
for every input tree, a document is produced exactly when some descendant is
the main container (extraction is total — no exceptions). -/
theorem c9_container_amended (root : Node) (now : String) :
    (parse_content root now).isSome = false ↔ ∀ d ∈ descs root, isMainDivB d = false := by
  rw [← pathsMatching_nil_iff isMainDivB root]
  unfold parse_content
  cases h : (pathsMatching isMainDivB root).head? with
  | none =>
    constructor
    · intro _
      exact List.head?_eq_none_iff.mp h
    · intro _
      rfl
  | some p =>
    constructor
    · intro hc
      simp at hc
    · intro hnil
      rw [hnil] at h
      simp at h

/-- C9 counterexample: on a tree with no `div.leading-0`, `parse_content`
produces no Document value at all (the claim says an empty Document with empty
introduction and sections is returned). -/
theorem c9_container_cex : parse_content c9root "2025-01-01T00:00:00" = none := rfl

theorem keepPara_length {l : List Char} {s : String} (h : keepPara l = some s) :
    10 < s.data.length := by
  unfold keepPara at h
  split at h
  · rename_i hc
    simp only [Option.some.injEq] at h
    subst h
    simp only [Bool.and_eq_true, decide_eq_true_eq] at hc
    exact hc.2
  · exact absurd h (by simp)

theorem keepPara_filterMap_length {l : List Node} {g : Node → List Char} {s : String}
    (h : s ∈ l.filterMap (fun p => keepPara (g p))) : 10 < s.data.length := by
  obtain ⟨a, _, hf⟩ := List.mem_filterMap.mp h
  exact keepPara_length hf

/-- C3 (corrected).  The table normalizer always emits a Table block once a
table element is located — there is no non-empty-rows gate (`return table_data`
is unconditional).  First-row cells become the headers, data rows whose cells
are all empty after normalization are discarded, so every emitted row has a
cell that is non-empty after stripping; but a table whose only data row is
`["", "", ""]` still yields a Table block with an empty `rows` list. -/
theorem c3_table_amended :
    (∀ (e : Node) (hs : List String) (rs : List (List String)),
      extract_content_data e .tableT = some (.tableB hs rs) →
      ∀ r ∈ rs, r.any (fun c => decide (pyStrip c.data ≠ [])) = true) ∧
    extract_content_data c3tblGood .tableT =
      some (.tableB ["Reporter", "Date", "Format"] [["All India Reporter", "1914", "AIR"]]) ∧
    extract_content_data c3tblEmptyRow .tableT = some (.tableB ["A", "B", "C"] []) := by
  refine ⟨?_, rfl, rfl⟩
  intro e hs rs hext r hr
  simp only [extract_content_data] at hext
  split at hext
  · exact absurd hext (by simp)
  · simp only [Option.some.injEq, Block.tableB.injEq] at hext
    obtain ⟨
_, hrows⟩ := hext
    subst hrows
    obtain ⟨row, _, hf⟩ := List.mem_filterMap.mp hr
    split at hf
    · rename_i hguard
      simp only [Option.some.injEq] at hf
      subst hf
      exact hguard
    · exact absurd hf (by simp)

/-- C3 counterexample: the table whose only data row is `["", "", ""]` DOES
produce a Table block (with empty `rows`), and the sequential processor emits
it into the section content — contradicting "produces no Table block at all". -/
theorem c3_table_cex :
    extract_content_data c3tblEmptyRow .tableT = some (.tableB ["A", "B", "C"] []) ∧
    (process_element_sequentially ⟨"Sec", "sec", []⟩ c3tblEmptyRow).content
      = [.tableB ["A", "B", "C"] []] := ⟨rfl, rfl⟩

/-- C3 witness: the rows-filter property applied to the concrete non-empty
table. -/
theorem c3_table_wit :
    (["All India Reporter", "1914", "AIR"] : List String).any
      (fun c => decide (pyStrip c.data ≠ [])) = true :=
  c3_table_amended.1 c3tblGood ["Reporter", "Date", "Format"]
    [["All India Reporter", "1914", "AIR"]] rfl
    ["All India Reporter", "1914", "AIR"] (by decide)

/-- C5 (corrected).  Every paragraph of an emitted Prose block has normalized
length strictly greater than 10 (an 8-character paragraph is dropped, an
11-character one kept), but Example blocks are NOT guarded: the normalizer
emits an Example whenever the `div.wysiwyg` container is found, with the
container's normalized text as citation even when that text is empty. -/
theorem c5_prose_example_amended :
    (∀ (e : Node) (ps : List String),
      extract_content_data e .contentT = some (.contentB ps) →
      ∀ s ∈ ps, 10 < s.data.length) ∧
    extract_content_data c5short .contentT = none ∧
    extract_content_data c5long .contentT = some (.contentB ["12345678901"]) ∧
    extract_content_data c5emptyEx .exampleT = some (.exampleB "") := by
  refine ⟨?_, rfl, rfl, rfl⟩
  intro e ps hext s hs
  simp only [extract_content_data] at hext
  generalize hA : List.filterMap (fun p => keepPara (cleanL (getText p)))
      (findAllD (tagClass "p" "font-serif") e) = psA at hext
  generalize hB : List.filterMap (fun p => keepPara (cleanL (getText p)))
      (findAllD (tagIs "p") e) = psB at hext
  generalize hC : keepPara (cleanL (getText e)) = oC at hext
  by_cases hA0 : psA = []
  · rw [if_pos hA0] at hext
    by_cases hB0 : psB = []
    · rw [if_pos hB0] at hext
      by_cases hg : ((findFirst (tagClass "div" "example") e).isNone
          && (findFirst (tagIs "table") e).isNone) = true
      · rw [if_pos hg] at hext
        cases oC with
        | none => simp at hext
        | some w =>
          simp only [Option.toList_some] at hext
          rw [if_neg (by simp)] at hext
          simp only [Option.some.injEq, Block.contentB.injEq] at hext
          subst hext
          have hsw : s = w := by simpa using hs
          subst hsw
          exact keepPara_length hC
      · rw [if_neg hg] at hext
        simp at hext
    · simp only [if_neg hB0] at hext
      simp only [Option.some.injEq, Block.contentB.injEq] at hext
      subst hext
      rw [← hB] at hs
      exact keepPara_filterMap_length hs
  · simp only [if_neg hA0] at hext
    simp only [Option.some.injEq, Block.contentB.injEq] at hext
    subst hext
    rw [← hA] at hs
    exact keepPara_filterMap_length hs

/-- C5 counterexample: an example node whose rich-content container holds only
whitespace is emitted as `Example{citation: ""}` — the citation CAN be the
empty string, both at the normalizer and after the sequential processor appends
it. -/
theorem c5_example_cex :
    extract_content_data c5emptyEx .exampleT = some (.exampleB "") ∧
    (process_element_sequentially ⟨"Sec", "sec", []⟩ c5emptyEx).content
      = [.exampleB ""] := ⟨rfl, rfl⟩

/-- C5 witness: the prose length bound applied to the concrete 11-character
paragraph. -/
theorem c5_prose_example_wit : 10 < ("12345678901" : String).data.length :=
  c5_prose_example_amended.1 c5long ["12345678901"] rfl "12345678901" (by decide)

/-- C6 (corrected).  The end-to-end scenario produces exactly one section
`{type: "main_section", title: "Cases", id: "cases", content: [example]}`,
whose 1-based position is its index in the sections sequence; but the section
dict carries NO `order` attribute (its keys are exactly type/title/id/content),
so the claimed `order: 1` field does not exist. -/
theorem c6_end_to_end (now : String) :
    parse_content c6root now =
      some ⟨⟨"", "", "", now, TARGET_URL⟩, [],
        [⟨"Cases", "cases", [.exampleB "Union Carbide v. India, AIR 1990 SC 273"]⟩]⟩ ∧
    (parse_content c6root now).map (fun d => d.content.map sectionToJson) =
      some [.jobj [("type", .jstr "main_section"), ("title", .jstr "Cases"),
        ("id", .jstr "cases"),
        ("content", .jarr [.jobj [("type", .jstr "example"),
          ("citation", .jstr "Union Carbide v. India, AIR 1990 SC 273")]])]] :=
  ⟨rfl, rfl⟩

/-- C6 counterexample: the JSON object of the produced section has no `order`
key — lookup yields `none`, contradicting the claimed `order: 1` attribute. -/
theorem c6_order_cex :
    (parse_content c6root "2025-01-01T00:00:00").map
      (fun d => d.content.map (fun s => jLookup "order" (sectionToJson s)))
      = some [none] := rfl

/-- C7 (corrected).  When the main container holds zero MainHeaders, the
extractor produces an empty sections sequence AND an empty introduction: the
introduction scan is guarded by `if first_section:` and collects nothing
without a first section header, so qualifying content before (absent) headers
is NOT absorbed. -/
theorem c7_intro_amended (root : Node) (mcP : List Nat) (mc : Node)
    (h1 : (pathsMatching isMainDivB root).head? = some mcP)
    (h2 : getPath root mcP = some mc)
    (h3 : pathsMatching isHdrB mc = []) :
    extract_introduction_content root = [] ∧ process_sequential_content root mcP = [] := by
  constructor
  · unfold extract_introduction_content
    simp only [h1, h2, h3, List.head?_nil]
  · unfold process_sequential_content
    simp only [h2]
    simp [habsOf, titlesOf, endsOf, h3]

/-- C7 counterexample: a tree whose main container holds a qualifying Prose
block but no MainHeader yields an EMPTY introduction, though the claim says the
introduction absorbs every qualifying block. -/
theorem c7_intro_cex :
    extract_introduction_content c7root = [] ∧
    classify_element_type (proseDiv "Introductory paragraph before sections.") = .contentT ∧
    extract_content_data (proseDiv "Introductory paragraph before sections.") .contentT =
      some (.contentB ["Introductory paragraph before sections."]) := ⟨rfl, rfl, rfl⟩

/-- C7 witness: the zero-MainHeader theorem applied to the concrete tree. -/
theorem c7_intro_wit :
    extract_introduction_content c7root = [] ∧ process_sequential_content c7root [0] = [] :=
  c7_intro_amended c7root [0]
    (.elem "div" ["leading-0"] [proseDiv "Introductory paragraph before sections."])
    rfl rfl rfl

theorem edm_fields (root : Node) (t1 t2 : String) :
    extract_document_metadata root t1
      = { extract_document_metadata root t2 with scraped_at := t1 } := rfl

/-- C8 (corrected).  Extraction is deterministic as a function of the tree AND
the capture timestamp, but `extract_document_metadata` stamps
`datetime.now().isoformat()` into `scraped_at`, so two runs on the same
unchanged tree agree on every field EXCEPT `scraped_at` (ids, introduction and
content are byte-identical); the documents are fully identical only when the
two capture times coincide. -/
theorem c8_idem_amended (root : Node) (t1 t2 : String) (d1 d2 : Document)
    (h1 : parse_content root t1 = some d1) (h2 : parse_content root t2 = some d2) :
    d1.introduction = d2.introduction ∧ d1.content = d2.content ∧
    d1.meta.title = d2.meta.title ∧ d1.meta.subtitle = d2.meta.subtitle ∧
    d1.meta.number = d2.meta.number ∧ d1.meta.source_url = d2.meta.source_url ∧
    d1.meta.scraped_at = t1 ∧ d2.meta.scraped_at = t2 ∧
    (t1 = t2 → d1 = d2) := by
  unfold parse_content at h1 h2
  cases hmc : (pathsMatching isMainDivB root).head? with
  | none => rw [hmc] at h1; exact absurd h1 (by simp)
  | some mcP =>
    rw [hmc] at h1 h2
    simp only [Option.some.injEq] at h1 h2
    subst h1
    subst h2
    refine ⟨rfl, rfl, ?_, ?_, ?_, ?_, ?_, ?_, ?_⟩
    · rw [edm_fields root t1 t2]
    · rw [edm_fields root t1 t2]
    · rw [edm_fields root t1 t2]
    · rw [edm_fields root t1 t2]
    · rw [edm_fields root t1 "x"]
    · rw [edm_fields root t2 "x"]
    · intro h
      rw [h]

/-- C8 counterexample: two runs at different capture times on the same
unchanged tree yield different Documents (they differ in `scraped_at`). -/
theorem c8_idem_cex :
    parse_content c8root "2025-01-01T00:00:00" ≠ parse_content c8root "2025-01-02T00:00:00" := by
  intro h
  have h2 : (some "2025-01-01T00:00:00" : Option String) = some "2025-01-02T00:00:00" :=
    congrArg (Option.map (fun d : Document => d.meta.scraped_at)) h
  simp at h2

/-- C8 witness: the field-equality theorem applied to two concrete runs. -/
theorem c8_idem_wit :
    c8docA.introduction = c8docB.introduction ∧ c8docA.content = c8docB.content ∧
    c8docA.meta.title = c8docB.meta.title ∧ c8docA.meta.subtitle = c8docB.meta.subtitle ∧
    c8docA.meta.number = c8docB.meta.number ∧
    c8docA.meta.source_url = c8docB.meta.source_url ∧
    c8docA.meta.scraped_at = "2025-01-01T00:00:00" ∧
    c8docB.meta.scraped_at = "2025-01-02T00:00:00" ∧
    ("2025-01-01T00:00:00" = "2025-01-02T00:00:00" → c8docA = c8docB) :=
  c8_idem_amended c8root "2025-01-01T00:00:00" "2025-01-02T00:00:00" c8docA c8docB rfl rfl

/-! ### Subsection-attachment refinement (C2) -/

theorem extract_subH_shape (e : Node) :
    ∃ t i, extract_content_data e .subH = some (.subHeaderB t i) :=
  ⟨_, _, rfl⟩

theorem extract_not_subsection (e : Node) (ty : EType) (b : Block)
    (h : extract_content_data e ty = some b) : ∀ t i c, b ≠ .subsectionB t i c := by
  intro t i c hbc
  subst hbc
  cases ty with
  | mainH =>
    simp only [extract_content_data] at h
    cases hf : findFirst (tagClass "h2" "text-3xl") e <;> rw [hf] at h <;> simp at h
  | subH =>
    simp only [extract_content_data] at h
    simp at h
  | contentT =>
    simp only [extract_content_data] at h
    split at h <;> simp at h
  | exampleT =>
    simp only [extract_content_data] at h
    cases hf : findFirst (tagClass "div" "wysiwyg") e <;> rw [hf] at h <;> simp at h
  | tableT =>
    simp only [extract_content_data] at h
    split at h <;> simp at h
  | unknownT =>
    simp only [extract_content_data] at h
    exact Option.noConfusion h

theorem append_step (sec : Section)
    (st : List Block × Option (String × String × List Block)) (b : Block)
    (h1 : sec.content = st.1 ++ closeSub st.2) (h2 : noSubIn st)
    (hnb : ∀ t i c, b ≠ .subsectionB t i c) :
    (appendBlock sec b).content = (specAppend st b).1 ++ closeSub (specAppend st b).2
      ∧ noSubIn (specAppend st b) := by
  cases hst2 : st.2 with
  | some tic =>
    obtain ⟨t, i, c⟩ := tic
    rw [hst2] at h1
    have hlast : sec.content.getLast? = some (.subsectionB t i c) := by
      rw [h1]
      exact List.getLast?_concat _
    have happ : appendBlock sec b
        = { sec with content := sec.content.dropLast ++ [.subsectionB t i (c ++ [b])] } := by
      unfold appendBlock
      rw [hlast]
    have hspec : specAppend st b = (st.1, some (t, i, c ++ [b])) := by
      unfold specAppend
      rw [hst2]
    constructor
    · rw [happ, hspec]
      show sec.content.dropLast ++ [Block.subsectionB t i (c ++ [b])]
        = st.1 ++ [Block.subsectionB t i (c ++ [b])]
      rw [h1, show closeSub (some (t, i, c)) = [Block.subsectionB t i c] from rfl,
        List.dropLast_concat]
    · rw [hspec]
      intro hn
      exact Option.noConfusion hn
  | none =>
    rw [hst2] at h1
    rw [show closeSub none = [] from rfl, List.append_nil] at h1
    have hspec : specAppend st b = (st.1 ++ [b], none) := by
      unfold specAppend
      rw [hst2]
    have hall := h2 hst2
    have hinv : noSubIn (st.1 ++ [b], none) := by
      intro _ x hx
      rcases List.mem_append.mp hx with hx1 | hx2
      · exact hall x hx1
      · rw [List.mem_singleton.mp hx2]
        exact hnb
    cases hsl : sec.content.getLast? with
    | none =>
      have happ : appendBlock sec b = { sec with content := sec.content ++ [b] } := by
        unfold appendBlock
        rw [hsl]
      refine ⟨?_, by rw [hspec]; exact hinv⟩
      rw [happ, hspec]
      show sec.content ++ [b] = (st.1 ++ [b]) ++ closeSub none
      rw [h1]
      simp [closeSub]
    | some lb =>
      have hlb : lb ∈ st.1 := by
        rw [← h1]
        exact List.mem_of_mem_getLast? hsl
      have hns := hall lb hlb
      have happ : appendBlock sec b = { sec with content := sec.content ++ [b] } := by
        unfold appendBlock
        rw [hsl]
        cases lb with
        | subsectionB t i c => exact absurd rfl (hns t i c)
        | mainHeaderB t i => rfl
        | subHeaderB t i => rfl
        | contentB ps => rfl
        | exampleB c => rfl
        | tableB hs rs => rfl
      refine ⟨?_, by rw [hspec]; exact hinv⟩
      rw [happ, hspec]
      show sec.content ++ [b] = (st.1 ++ [b]) ++ closeSub none
      rw [h1]
      simp [closeSub]

theorem step_full (sec : Section)
    (st : List Block × Option (String × String × List Block)) (e : Node)
    (h1 : sec.content = st.1 ++ closeSub st.2) (h2 : noSubIn st) :
    (process_element_sequentially sec e).content
      = (specStep st e).1 ++ closeSub (specStep st e).2
      ∧ noSubIn (specStep st e) := by
  cases hcl : classify_element_type e with
  | unknownT =>
    simp only [process_element_sequentially, specStep, hcl]
    exact ⟨h1, h2⟩
  | subH =>
    obtain ⟨t, i, hx⟩ := extract_subH_shape e
    simp only [process_element_sequentially, specStep, hcl, hx]
    refine ⟨?_, ?_⟩
    · rw [h1]
      rfl
    · intro hn
      exact Option.noConfusion hn
  | mainH =>
    simp only [process_element_sequentially, specStep, hcl]
    cases hx : extract_content_data e .mainH with
    | none => exact ⟨h1, h2⟩
    | some b => exact append_step sec st b h1 h2 (extract_not_subsection e _ b hx)
  | contentT =>
    simp only [process_element_sequentially, specStep, hcl]
    cases hx : extract_content_data e .contentT with
    | none => exact ⟨h1, h2⟩
    | some b => exact append_step sec st b h1 h2 (extract_not_subsection e _ b hx)
  | exampleT =>
    simp only [process_element_sequentially, specStep, hcl]
    cases hx : extract_content_data e .exampleT with
    | none => exact ⟨h1, h2⟩
    | some b => exact append_step sec st b h1 h2 (extract_not_subsection e _ b hx)
  | tableT =>
    simp only [process_element_sequentially, specStep, hcl]
    cases hx : extract_content_data e .tableT with
    | none => exact ⟨h1, h2⟩
    | some b => exact append_step sec st b h1 h2 (extract_not_subsection e _ b hx)

theorem fold_spec_inv : ∀ (es : List Node) (sec : Section)
    (st : List Block × Option (String × String × List Block)),
    sec.content = st.1 ++ closeSub st.2 → noSubIn st →
    (es.foldl process_element_sequentially sec).content
      = (es.foldl specStep st).1 ++ closeSub (es.foldl specStep st).2 := by
  intro es
  induction es with
  | nil => intro sec st h1 _; exact h1
  | cons e es ih =>
    intro sec st h1 h2
    rw [List.foldl_cons, List.foldl_cons]
    obtain ⟨ha, hb⟩ := step_full sec st e h1 h2
    exact ih _ _ ha hb

/-- C2 (confirmed).  Folding any element sequence into a fresh section is
exactly the spec's cursor discipline: at most one subsection is open at a time,
blocks before the first SubHeader attach directly to the section, blocks after
a SubHeader attach to that SubHeader's subsection until the next SubHeader,
never retroactively (`specAssemble` is the cursor-based reference extractor).
On the concrete sequence [MainHeader "Cases", Prose A, SubHeader "STATUTES",
Prose B, Table T] the result is one Section "Cases" with content
[Prose A, Subsection "Statutes" [Prose B, Table T]]; Prose A stays outside the
subsection. -/
theorem c2_subsection_attach :
    (∀ (es : List Node) (t i : String),
      (es.foldl process_element_sequentially ⟨t, i, []⟩).content = specAssemble es) ∧
    process_sequential_content c2root [] =
      [⟨"Cases", "cases",
        [.contentB ["Citation format for Indian cases."],
         .subsectionB "Statutes" "statutes"
           [.contentB ["Statutes are cited by year and number."],
            .tableB ["Reporter", "Date"] [["All India Reporter", "1914"]]]]⟩] := by
  constructor
  · intro es t i
    have h := fold_spec_inv es ⟨t, i, []⟩ ([], none) rfl
      (by intro _ x hx; simp at hx)
    simpa [specAssemble] using h
  · rfl

/-! ### clean_text lemmas (C10) -/

theorem wordsAux_words : ∀ (s cur : List Char), (∀ c ∈ cur, isPySpace c = false) →
    ∀ w ∈ wordsAux cur s, w ≠ [] ∧ ∀ c ∈ w, isPySpace c = false := by
  intro s
  induction s with
  | nil =>
    intro cur hcur w hw
    unfold wordsAux at hw
    split at hw
    · simp at hw
    · rename_i hne
      have hww : w = cur.reverse := by simpa using hw
      subst hww
      refine ⟨by simpa using hne, ?_⟩
      intro c hc
      exact hcur c (List.mem_reverse.mp hc)
  | cons c t ih =>
    intro cur hcur w hw
    unfold wordsAux at hw
    by_cases hc : isPySpace c = true
    · rw [if_pos hc] at hw
      by_cases hnil : cur = []
      · rw [if_pos hnil] at hw
        exact ih [] (by simp) w hw
      · rw [if_neg hnil] at hw
        rcases List.mem_cons.mp hw with rfl | hw2
        · refine ⟨by simpa using hnil, ?_⟩
          intro x hx
          exact hcur x (List.mem_reverse.mp hx)
        · exact ih [] (by simp) w hw2
    · rw [if_neg hc] at hw
      refine ih (c :: cur) ?_ w hw
      intro x hx
      rcases List.mem_cons.mp hx with rfl | hx2
      · simpa using hc
      · exact hcur x hx2

theorem wordsAux_append : ∀ (w cur rest : List Char), (∀ c ∈ w, isPySpace c = false) →
    wordsAux cur (w ++ rest) = wordsAux (w.reverse ++ cur) rest := by
  intro w
  induction w with
  | nil => intro cur rest _; simp
  | cons c w ih =>
    intro cur rest hw
    have hc : isPySpace c = false := hw c (List.mem_cons_self _ _)
    show wordsAux cur (c :: (w ++ rest)) = _
    rw [wordsAux, if_neg (by simp [hc])]
    rw [ih (c :: cur) rest (fun x hx => hw x (List.mem_cons_of_mem _ hx))]
    congr 1
    simp

theorem wordsAux_space (cur rest : List Char) (h : cur ≠ []) (c : Char)
    (hc : isPySpace c = true) :
    wordsAux cur (c :: rest) = cur.reverse :: wordsAux [] rest := by
  rw [wordsAux, if_pos hc, if_neg h]

theorem pyWords_joinSpace : ∀ (ws : List (List Char)),
    (∀ w ∈ ws, w ≠ [] ∧ ∀ c ∈ w, isPySpace c = false) →
    wordsAux [] (joinSpace ws) = ws := by
  intro ws
  induction ws with
  | nil => intro _; rfl
  | cons w ws ih =>
    intro h
    have hw := h w (List.mem_cons_self _ _)
    cases ws with
    | nil =>
      show wordsAux [] (joinSpace [w]) = [w]
      rw [joinSpace]
      have h2 := wordsAux_append w [] [] hw.2
      rw [List.append_nil] at h2
      rw [h2, List.append_nil, wordsAux, if_neg (by simpa using hw.1)]
      simp
    | cons w2 ws2 =>
      show wordsAux [] (w ++ ' ' :: joinSpace (w2 :: ws2)) = w :: w2 :: ws2
      rw [wordsAux_append w [] (' ' :: joinSpace (w2 :: ws2)) hw.2, List.append_nil]
      rw [wordsAux_space w.reverse _ (by simpa using hw.1) ' ' rfl]
      rw [List.reverse_reverse]
      rw [ih (fun x hx => h x (List.mem_cons_of_mem _ hx))]

theorem dropWhile_eq_self_of_head {p : Char → Bool} {l : List Char}
    (h : ∀ a, l.head? = some a → p a = false) : l.dropWhile p = l := by
  cases l with
  | nil => rfl
  | cons a t => exact List.dropWhile_cons_of_neg (by simp [h a rfl])

theorem pyStrip_eq_self {l : List Char}
    (h1 : ∀ a, l.head? = some a → isPySpace a = false)
    (h2 : ∀ a, l.getLast? = some a → isPySpace a = false) : pyStrip l = l := by
  unfold pyStrip
  rw [dropWhile_eq_self_of_head h1]
  rw [dropWhile_eq_self_of_head (by
    intro a ha
    rw [List.head?_reverse] at ha
    exact h2 a ha)]
  exact List.reverse_reverse l

theorem joinSpace_cons_cons (w w2 : List Char) (ws : List (List Char)) :
    joinSpace (w :: w2 :: ws) = w ++ ' ' :: joinSpace (w2 :: ws) := rfl

theorem joinSpace_ne_nil (w : List Char) (ws : List (List Char)) (hw : w ≠ []) :
    joinSpace (w :: ws) ≠ [] := by
  cases ws with
  | nil => simpa [joinSpace] using hw
  | cons w2 ws2 =>
    rw [joinSpace_cons_cons]
    simp

theorem joinSpace_head : ∀ (ws : List (List Char)),
    (∀ w ∈ ws, w ≠ [] ∧ ∀ c ∈ w, isPySpace c = false) →
    ∀ a, (joinSpace ws).head? = some a → isPySpace a = false := by
  intro ws
  induction ws with
  | nil => intro _ a ha; simp [joinSpace] at ha
  | cons w ws ih =>
    intro h a ha
    have hw := h w (List.mem_cons_self _ _)
    cases ws with
    | nil =>
      rw [show joinSpace [w] = w from rfl] at ha
      exact hw.2 a (List.mem_of_mem_head? ha)
    | cons w2 ws2 =>
      rw [joinSpace_cons_cons, List.head?_append] at ha
      cases hwh : w.head? with
      | none => exact absurd (List.head?_eq_none_iff.mp hwh) hw.1
      | some b =>
        rw [hwh] at ha
        simp only [Option.or] at ha
        injection ha with ha2
        subst ha2
        exact hw.2 b (List.mem_of_mem_head? hwh)

theorem joinSpace_getLast : ∀ (ws : List (List Char)),
    (∀ w ∈ ws, w ≠ [] ∧ ∀ c ∈ w, isPySpace c = false) →
    ∀ a, (joinSpace ws).getLast? = some a → isPySpace a = false := by
  intro ws
  induction ws with
  | nil => intro _ a ha; simp [joinSpace] at ha
  | cons w ws ih =>
    intro h a ha
    have hw := h w (List.mem_cons_self _ _)
    cases ws with
    | nil =>
      rw [show joinSpace [w] = w from rfl] at ha
      exact hw.2 a (List.mem_of_mem_getLast? ha)
    | cons w2 ws2 =>
      have hrest : ∀ x ∈ w2 :: ws2, x ≠ [] ∧ ∀ c ∈ x, isPySpace c = false :=
        fun x hx => h x (List.mem_cons_of_mem _ hx)
      have hw2 := hrest w2 (List.mem_cons_self _ _)
      rw [joinSpace_cons_cons, List.getLast?_append] at ha
      cases hJ : joinSpace (w2 :: ws2) with
      | nil => exact absurd hJ (joinSpace_ne_nil w2 ws2 hw2.1)
      | cons b t =>
        rw [hJ, List.getLast?_cons_cons] at ha
        cases hbt : (b :: t).getLast? with
        | none => simp [List.getLast?_eq_none_iff] at hbt
        | some x =>
          rw [hbt] at ha
          simp only [Option.or] at ha
          injection ha with ha2
          subst ha2
          refine ih hrest x ?_
          rw [hJ]
          exact hbt

theorem mem_joinSpace : ∀ (ws : List (List Char)) (c : Char), c ∈ joinSpace ws →
    c = ' ' ∨ ∃ w ∈ ws, c ∈ w := by
  intro ws
  induction ws with
  | nil => intro c hc; simp [joinSpace] at hc
  | cons w ws ih =>
    intro c hc
    cases ws with
    | nil =>
      rw [show joinSpace [w] = w from rfl] at hc
      exact Or.inr ⟨w, List.mem_cons_self _ _, hc⟩
    | cons w2 ws2 =>
      rw [joinSpace_cons_cons] at hc
      rcases List.mem_append.mp hc with h1 | h2
      · exact Or.inr ⟨w, List.mem_cons_self _ _, h1⟩
      rcases List.mem_cons.mp h2 with rfl | h3
      · exact Or.inl rfl
      rcases ih c h3 with h4 | ⟨w2x, hw2x, hcx⟩
      · exact Or.inl h4
      · exact Or.inr ⟨w2x, List.mem_cons_of_mem _ hw2x, hcx⟩

theorem noTwoSpaces_append_word : ∀ (w l : List Char),
    (∀ c ∈ w, isPySpace c = false) → noTwoSpaces l = true →
    noTwoSpaces (w ++ l) = true := by
  intro w
  induction w with
  | nil => intro l _ hl; simpa using hl
  | cons c w ih =>
    intro l hw hl
    have hc : isPySpace c = false := hw c (List.mem_cons_self _ _)
    have hcs : c ≠ ' ' := by
      intro hce
      rw [hce] at hc
      simp [isPySpace] at hc
    have htail := ih l (fun x hx => hw x (List.mem_cons_of_mem _ hx)) hl
    show noTwoSpaces (c :: (w ++ l)) = true
    cases hwl : w ++ l with
    | nil => rfl
    | cons b t =>
      rw [noTwoSpaces]
      rw [hwl] at htail
      simp [hcs, htail]

theorem noTwoSpaces_joinSpace : ∀ (ws : List (List Char)),
    (∀ w ∈ ws, w ≠ [] ∧ ∀ c ∈ w, isPySpace c = false) →
    noTwoSpaces (joinSpace ws) = true := by
  intro ws
  induction ws with
  | nil => intro _; rfl
  | cons w ws ih =>
    intro h
    have hw := h w (List.mem_cons_self _ _)
    cases ws with
    | nil =>
      rw [show joinSpace [w] = w from rfl]
      have := noTwoSpaces_append_word w [] hw.2 rfl
      simpa using this
    | cons w2 ws2 =>
      have hrest : ∀ x ∈ w2 :: ws2, x ≠ [] ∧ ∀ c ∈ x, isPySpace c = false :=
        fun x hx => h x (List.mem_cons_of_mem _ hx)
      rw [joinSpace_cons_cons]
      refine noTwoSpaces_append_word w _ hw.2 ?_
      have hJ := ih hrest
      cases hj : joinSpace (w2 :: ws2) with
      | nil => rfl
      | cons b t =>
        rw [noTwoSpaces]
        have hb : isPySpace b = false := by
          refine joinSpace_head (w2 :: ws2) hrest b ?_
          rw [hj]
          rfl
        have hbs : b ≠ ' ' := by
          intro hbe
          rw [hbe] at hb
          simp [isPySpace] at hb
        rw [hj] at hJ
        simp [hbs, hJ]

theorem cleanL_words (s : List Char) :
    ∀ w ∈ wordsAux [] (pyStrip s), w ≠ [] ∧ ∀ c ∈ w, isPySpace c = false :=
  wordsAux_words (pyStrip s) [] (by simp)

theorem cleanL_idem (s : List Char) : cleanL (cleanL s) = cleanL s := by
  have hcw := cleanL_words s
  show joinSpace (wordsAux [] (pyStrip (cleanL s))) = cleanL s
  have h1 : pyStrip (cleanL s) = cleanL s :=
    pyStrip_eq_self (fun a ha => joinSpace_head _ hcw a ha)
      (fun a ha => joinSpace_getLast _ hcw a ha)
  rw [h1]
  show joinSpace (wordsAux [] (joinSpace (wordsAux [] (pyStrip s)))) = cleanL s
  rw [pyWords_joinSpace _ hcw]
  rfl

/-- C10 (confirmed).  `clean_text` is total, maps `None` and `""` to `""`, its
result uses `' '` as the only whitespace character with no leading or trailing
whitespace and no two adjacent spaces, and applying it twice equals applying it
once. -/
theorem c10_clean_text_props (s : String) :
    clean_text none = "" ∧ clean_text (some "") = "" ∧
    (∀ c ∈ (clean_text (some s)).data, isPySpace c = true → c = ' ') ∧
    (∀ a, (clean_text (some s)).data.head? = some a → isPySpace a = false) ∧
    (∀ a, (clean_text (some s)).data.getLast? = some a → isPySpace a = false) ∧
    noTwoSpaces (clean_text (some s)).data = true ∧
    clean_text (some (clean_text (some s))) = clean_text (some s) := by
  have hcw := cleanL_words s.data
  by_cases hs : s.data = []
  · have hval0 : clean_text (some s) = "" := by
      rw [clean_text, if_pos hs]
    rw [hval0]
    exact ⟨rfl, rfl, by simp, by simp, by simp, rfl, rfl⟩
  · have hval : clean_text (some s) = ⟨cleanL s.data⟩ := by
      rw [clean_text, if_neg hs]
    refine ⟨rfl, rfl, ?_, ?_, ?_, ?_, ?_⟩
    · intro c hc hsp
      rw [hval] at hc
      rcases mem_joinSpace _ c hc with h1 | ⟨w, hw, hcw2⟩
      · exact h1
      · exact absurd hsp (by simp [(hcw w hw).2 c hcw2])
    · intro a ha
      rw [hval] at ha
      exact joinSpace_head _ hcw a ha
    · intro a ha
      rw [hval] at ha
      exact joinSpace_getLast _ hcw a ha
    · rw [hval]
      exact noTwoSpaces_joinSpace _ hcw
    · rw [hval]
      by_cases hr : cleanL s.data = []
      · rw [hr]
        rfl
      · show (if cleanL s.data = [] then ("" : String) else ⟨cleanL (cleanL s.data)⟩)
          = (⟨cleanL s.data⟩ : String)
        rw [if_neg hr, cleanL_idem]

/-- C10 witness: the head of a concrete cleaned string is not whitespace. -/
theorem c10_clean_text_wit : isPySpace 'h' = false :=
  (c10_clean_text_props "  hello   world ").2.2.2.1 'h' rfl

/-- C1 counterexample: with two sections titled "Cases", the title-keyed
boundaries dict is overwritten, the first section's walk runs past the second
header, and the second section's paragraph is emitted TWICE across the output —
violating "no node's content emitted twice". -/
theorem c1_order_cex :
    (flattenSections (process_sequential_content c1root [])).count
      (Block.contentB ["Second section paragraph text."]) = 2 := by decide

/-! ### C1: header-path computation for the flat layout -/

theorem filter_nodePathsL (pred : Node → Bool) (t : String) (cl : List String)
    (CS : List Node) :
    ∀ (xs : List Node) (i : Nat), (∀ k, xs[k]? = CS[i + k]?) →
    (nodePathsL i xs).filter (predAt pred (Node.elem t cl CS)) = pmAux pred i xs := by
  intro xs
  induction xs with
  | nil => intro i _; rfl
  | cons x xs ih =>
    intro i hsl
    have hx : CS[i]? = some x := by
      have h0 := hsl 0
      simpa using h0.symm
    have hpi : predAt pred (Node.elem t cl CS) [i] = pred x := by
      simp [predAt, getPath, hx]
    have hcomp : (predAt pred (Node.elem t cl CS)) ∘ (fun q => i :: q) = predAt pred x := by
      funext q
      simp [Function.comp, predAt, getPath, hx]
    have hrest : (nodePathsL (i + 1) xs).filter (predAt pred (Node.elem t cl CS))
        = pmAux pred (i + 1) xs := by
      refine ih (i + 1) ?_
      intro k
      have hk := hsl (k + 1)
      rw [List.getElem?_cons_succ] at hk
      rw [hk]
      congr 1
      omega
    rw [nodePathsL, pmAux, List.filter_cons, hpi, List.filter_append,
      List.filter_map, hcomp, hrest]
    show (if pred x = true then [i] :: _ else _) = _
    cases hpx : pred x <;> simp [pathsMatching]

theorem pathsMatching_elem (pred : Node → Bool) (t : String) (cl : List String)
    (cs : List Node) :
    pathsMatching pred (Node.elem t cl cs) = pmAux pred 0 cs := by
  rw [pathsMatching, nodePaths]
  exact filter_nodePathsL pred t cl cs cs 0 (by intro k; simp)

theorem pmAux_append (pred : Node → Bool) : ∀ (xs ys : List Node) (i : Nat),
    pmAux pred i (xs ++ ys) = pmAux pred i xs ++ pmAux pred (i + xs.length) ys := by
  intro xs
  induction xs with
  | nil => intro ys i; simp [pmAux]
  | cons x xs ih =>
    intro ys i
    rw [List.cons_append, pmAux, pmAux, ih ys (i + 1)]
    have harith : i + 1 + xs.length = i + (x :: xs).length := by
      simp
      omega
    rw [harith]
    simp [List.append_assoc]

theorem pathsMatching_headerFree {x : Node} (h : headerFreeB x = true) :
    pathsMatching isHdrB x = [] := by
  rw [pathsMatching_nil_iff]
  intro d hd
  unfold headerFreeB at h
  simp only [Bool.and_eq_true, List.all_eq_true] at h
  simpa using h.2 d hd

theorem isHdrB_false_of_headerFree {x : Node} (h : headerFreeB x = true) :
    isHdrB x = false := by
  unfold headerFreeB at h
  simp only [Bool.and_eq_true] at h
  simpa using h.1

theorem pmAux_headerFree : ∀ (xs : List Node) (i : Nat),
    (∀ x ∈ xs, headerFreeB x = true) → pmAux isHdrB i xs = [] := by
  intro xs
  induction xs with
  | nil => intro i _; rfl
  | cons x xs ih =>
    intro i h
    have hx := h x (List.mem_cons_self _ _)
    rw [pmAux, isHdrB_false_of_headerFree hx, pathsMatching_headerFree hx,
      ih (i + 1) (fun y hy => h y (List.mem_cons_of_mem _ hy))]
    simp

theorem pathsMatching_container (s : SecSpec)
    (hhdr : isHdrB s.hdr = true)
    (hfree : ∀ d ∈ descs s.hdr, isHdrB d = false)
    (hb : ∀ x ∈ s.before, headerFreeB x = true)
    (ha : ∀ x ∈ s.after, headerFreeB x = true) :
    pathsMatching isHdrB s.container = [[s.before.length]] := by
  show pathsMatching isHdrB (.elem "div" s.cls (s.before ++ s.hdr :: s.after)) = _
  rw [pathsMatching_elem, pmAux_append _ s.before (s.hdr :: s.after) 0,
    pmAux_headerFree s.before 0 hb, pmAux, hhdr,
    (pathsMatching_nil_iff isHdrB s.hdr).mpr hfree,
    pmAux_headerFree s.after _ ha]
  simp

theorem pmAux_c1Body : ∀ (specs : List SecSpec) (off : Nat),
    (∀ s ∈ specs, isHdrB s.hdr = true) →
    (∀ s ∈ specs, ∀ d ∈ descs s.hdr, isHdrB d = false) →
    (∀ s ∈ specs, ∀ x ∈ s.before, headerFreeB x = true) →
    (∀ s ∈ specs, ∀ x ∈ s.after, headerFreeB x = true) →
    (∀ s ∈ specs, ∀ x ∈ s.body, headerFreeB x = true) →
    pmAux isHdrB off (c1Body specs) = hdrPathList off specs := by
  intro specs
  induction specs with
  | nil => intro off _ _ _ _ _; rfl
  | cons s r ih =>
    intro off h1 h2 h3 h4 h5
    have hmem := List.mem_cons_self s r
    have hc : c1Body (s :: r) = s.container :: (s.body ++ c1Body r) := by
      simp [c1Body]
    have hcontf : isHdrB s.container = false := rfl
    rw [hc, pmAux, hcontf,
      pathsMatching_container s (h1 s hmem) (h2 s hmem) (h3 s hmem) (h4 s hmem),
      pmAux_append _ s.body (c1Body r) (off + 1),
      pmAux_headerFree s.body _ (h5 s hmem),
      ih (off + 1 + s.body.length)
        (fun x hx => h1 x (List.mem_cons_of_mem _ hx))
        (fun x hx => h2 x (List.mem_cons_of_mem _ hx))
        (fun x hx => h3 x (List.mem_cons_of_mem _ hx))
        (fun x hx => h4 x (List.mem_cons_of_mem _ hx))
        (fun x hx => h5 x (List.mem_cons_of_mem _ hx)),
      hdrPathList]
    simp

theorem pathsMatching_mc (mcls : List String) (pre : List Node)
    (specs : List SecSpec)
    (hpre : ∀ x ∈ pre, headerFreeB x = true)
    (h1 : ∀ s ∈ specs, isHdrB s.hdr = true)
    (h2 : ∀ s ∈ specs, ∀ d ∈ descs s.hdr, isHdrB d = false)
    (h3 : ∀ s ∈ specs, ∀ x ∈ s.before, headerFreeB x = true)
    (h4 : ∀ s ∈ specs, ∀ x ∈ s.after, headerFreeB x = true)
    (h5 : ∀ s ∈ specs, ∀ x ∈ s.body, headerFreeB x = true) :
    pathsMatching isHdrB (Node.elem "div" mcls (pre ++ c1Body specs))
      = hdrPathList pre.length specs := by
  rw [pathsMatching_elem, pmAux_append _ pre (c1Body specs) 0,
    pmAux_headerFree pre 0 hpre, pmAux_c1Body specs (0 + pre.length) h1 h2 h3 h4 h5]
  simp

/-! ### C1: titles, boundary dict and lookups -/

theorem getPath_nil (n : Node) : getPath n [] = some n := by
  cases n <;> rfl

theorem getPath_mc_container (mcls : List String) (front : List Node)
    (specs : List SecSpec) (s : SecSpec) (r : List SecSpec)
    (hsp : specs = s :: r) :
    getPath (Node.elem "div" mcls (front ++ c1Body specs)) [front.length]
      = some s.container := by
  subst hsp
  have hk : (front ++ c1Body (s :: r))[front.length]? = some s.container := by
    rw [List.getElem?_append_right (le_refl _)]
    simp [c1Body]
  show (match (front ++ c1Body (s :: r))[front.length]? with
    | some c => getPath c []
    | none => none) = some s.container
  rw [hk]
  exact getPath_nil s.container

theorem textAt_hdr (mcls : List String) (front : List Node) (s : SecSpec)
    (r : List SecSpec) :
    textAt (Node.elem "div" mcls (front ++ c1Body (s :: r)))
        [front.length, s.before.length] = getText s.hdr := by
  have hk : (front ++ c1Body (s :: r))[front.length]?
      = some (Node.elem "div" s.cls (s.before ++ s.hdr :: s.after)) := by
    rw [List.getElem?_append_right (le_refl _)]
    simp [c1Body, SecSpec.container]
  have hj : (s.before ++ s.hdr :: s.after)[s.before.length]? = some s.hdr := by
    rw [List.getElem?_append_right (le_refl _)]
    simp
  simp only [textAt, getPath, hk, hj]

theorem c1Body_front (front : List Node) (s : SecSpec) (r : List SecSpec) :
    front ++ c1Body (s :: r) = (front ++ s.container :: s.body) ++ c1Body r := by
  simp [c1Body]

theorem front_grow_length (front : List Node) (s : SecSpec) :
    (front ++ s.container :: s.body).length = front.length + 1 + s.body.length := by
  simp
  omega

theorem titlesOf_hdrPathList (mcls : List String) :
    ∀ (specs : List SecSpec) (front : List Node),
    titlesOf (Node.elem "div" mcls (front ++ c1Body specs))
        (hdrPathList front.length specs)
      = specs.map SecSpec.title := by
  intro specs
  induction specs with
  | nil => intro front; rfl
  | cons s r ih =>
    intro front
    rw [hdrPathList]
    show (cleanS (textAt _ [front.length, s.before.length]))
        :: titlesOf _ (hdrPathList (front.length + 1 + s.body.length) r)
      = s.title :: r.map SecSpec.title
    congr 1
    · rw [textAt_hdr]
      rfl
    · rw [← front_grow_length front s]
      have hres := ih (front ++ s.container :: s.body)
      rw [← c1Body_front front s r] at hres
      exact hres

theorem ends_step (mcls : List String) (front : List Node) (s : SecSpec)
    (r : List SecSpec) :
    ∀ p ∈ hdrPathList ((front ++ s.container :: s.body).length) r,
    getPath (Node.elem "div" mcls (front ++ c1Body (s :: r))) p.dropLast
      = getPath (Node.elem "div" mcls ((front ++ s.container :: s.body) ++ c1Body r))
          p.dropLast := by
  intro p _
  rw [← c1Body_front front s r]

theorem bnds_eq (mcls : List String) :
    ∀ (specs : List SecSpec) (front : List Node),
    ((specs.map SecSpec.title).zip
        (endsOf (Node.elem "div" mcls (front ++ c1Body specs))
          (hdrPathList front.length specs)))
      = bndsList specs := by
  intro specs
  induction specs with
  | nil => intro front; rfl
  | cons s r ih =>
    intro front
    cases r with
    | nil => simp [hdrPathList, endsOf, bndsList, nextEnd]
    | cons s2 r2 =>
      rw [List.map_cons, hdrPathList, bndsList]
      show ((s.title :: (s2 :: r2).map SecSpec.title).zip
          (endsOf _ ([front.length, s.before.length]
            :: hdrPathList (front.length + 1 + s.body.length) (s2 :: r2))))
        = (s.title, nextEnd (s2 :: r2)) :: bndsList (s2 :: r2)
      rw [endsOf]
      rw [show ([front.length, s.before.length]
          :: hdrPathList (front.length + 1 + s.body.length) (s2 :: r2)).drop 1
        = hdrPathList (front.length + 1 + s.body.length) (s2 :: r2) from rfl]
      rw [hdrPathList, List.map_cons]
      show ((s.title :: (s2 :: r2).map SecSpec.title).zip
          ((getPath _ ([front.length + 1 + s.body.length, s2.before.length]).dropLast)
            :: (((hdrPathList (front.length + 1 + s.body.length + 1 + s2.body.length) r2).map
              (fun p => getPath _ p.dropLast)) ++ [none])))
        = (s.title, nextEnd (s2 :: r2)) :: bndsList (s2 :: r2)
      rw [List.zip_cons_cons]
      congr 1
      · congr 1
        show getPath _ [front.length + 1 + s.body.length] = nextEnd (s2 :: r2)
        rw [show nextEnd (s2 :: r2) = some s2.container from rfl]
        rw [← front_grow_length front s, c1Body_front front s (s2 :: r2)]
        exact getPath_mc_container mcls (front ++ s.container :: s.body) (s2 :: r2)
          s2 r2 rfl
      · -- tail: matches the ih instance at the grown front
        have h2 := ih (front ++ s.container :: s.body)
        rw [← c1Body_front front s (s2 :: r2)] at h2
        rw [front_grow_length front s] at h2
        rw [hdrPathList, endsOf] at h2
        rw [show ([front.length + 1 + s.body.length, s2.before.length]
            :: hdrPathList (front.length + 1 + s.body.length + 1 + s2.body.length) r2).drop 1
          = hdrPathList (front.length + 1 + s.body.length + 1 + s2.body.length) r2 from rfl] at h2
        exact h2

theorem bndsList_fst : ∀ (specs : List SecSpec),
    (bndsList specs).map Prod.fst = specs.map SecSpec.title := by
  intro specs
  induction specs with
  | nil => rfl
  | cons s r ih => rw [bndsList, List.map_cons, List.map_cons, ih]

theorem find_bnds (t : String) (e : Option Node) :
    ∀ (bnds : List (String × Option Node)),
    (bnds.map Prod.fst).Nodup → (t, e) ∈ bnds →
    bnds.reverse.find? (fun pr => pr.1 == t) = some (t, e) := by
  intro bnds
  induction bnds with
  | nil => intro _ h; simp at h
  | cons x rest ih =>
    intro hnd hmem
    rw [List.reverse_cons, List.find?_append]
    simp only [List.map_cons, List.nodup_cons] at hnd
    rcases List.mem_cons.mp hmem with rfl | h2
    · have hn : rest.reverse.find? (fun pr => pr.1 == t) = none := by
        rw [List.find?_eq_none]
        intro y hy
        have hmem2 : y.1 ∈ rest.map Prod.fst :=
          List.mem_map_of_mem _ (List.mem_reverse.mp hy)
        simp only [beq_iff_eq]
        intro hyt
        rw [hyt] at hmem2
        exact hnd.1 hmem2
      rw [hn]
      simp
    · rw [ih hnd.2 h2]
      rfl

theorem lookupEnd_of_mem (t : String) (e : Option Node)
    (bnds : List (String × Option Node))
    (hnd : (bnds.map Prod.fst).Nodup) (hmem : (t, e) ∈ bnds) :
    lookupEnd t bnds = e := by
  unfold lookupEnd
  rw [find_bnds t e bnds hnd hmem]

theorem mem_bndsList : ∀ (p r : List SecSpec) (s : SecSpec),
    (s.title, nextEnd r) ∈ bndsList (p ++ s :: r) := by
  intro p
  induction p with
  | nil =>
    intro r s
    rw [List.nil_append, bndsList]
    exact List.mem_cons_self _ _
  | cons x p ih =>
    intro r s
    rw [List.cons_append, bndsList]
    exact List.mem_cons_of_mem _ (ih r s)

theorem lookupAligned_suffix (specs : List SecSpec)
    (hnd : (specs.map SecSpec.title).Nodup) :
    ∀ (r p : List SecSpec), specs = p ++ r → lookupAligned r (bndsList specs) := by
  intro r
  induction r with
  | nil => intro p _; trivial
  | cons s r ih =>
    intro p hps
    constructor
    · refine lookupEnd_of_mem s.title (nextEnd r) _ ?_ ?_
      · rw [bndsList_fst]
        exact hnd
      · rw [hps]
        exact mem_bndsList p r s
    · exact ih (p ++ [s]) (by rw [hps]; simp)

/-! ### C1: the sibling walk and the section fold -/

theorem takeWhile_all (p : Node → Bool) :
    ∀ (l : List Node), (∀ a ∈ l, p a = true) → l.takeWhile p = l := by
  intro l
  induction l with
  | nil => intro _; rfl
  | cons a l ih =>
    intro h
    simp [List.takeWhile_cons, h a (List.mem_cons_self _ _),
      ih (fun b hb => h b (List.mem_cons_of_mem _ hb))]

theorem takeWhile_split (p : Node → Bool) (x : Node) (B : List Node)
    (hx : p x = false) :
    ∀ (A : List Node), (∀ a ∈ A, p a = true) → (A ++ x :: B).takeWhile p = A := by
  intro A
  induction A with
  | nil =>
    intro _
    simp [List.takeWhile_cons, hx]
  | cons a A ih =>
    intro h
    rw [List.cons_append]
    simp [List.takeWhile_cons, h a (List.mem_cons_self _ _),
      ih (fun b hb => h b (List.mem_cons_of_mem _ hb))]

theorem hdr_mem_descs_container (s : SecSpec) : s.hdr ∈ descs s.container := by
  show s.hdr ∈ descs (.elem "div" s.cls (s.before ++ s.hdr :: s.after))
  rw [descs, mem_descsL_iff]
  refine ⟨s.before.length, s.hdr, ?_, Or.inl rfl⟩
  rw [List.getElem?_append_right (le_refl _)]
  simp

theorem ne_container_of_headerFree (n : Node) (s2 : SecSpec)
    (hhf : headerFreeB n = true) (hh : isHdrB s2.hdr = true) : n ≠ s2.container := by
  intro he
  subst he
  rw [headerFreeB, Bool.and_eq_true, List.all_eq_true] at hhf
  have hd := hhf.2 s2.hdr (hdr_mem_descs_container s2)
  rw [hh] at hd
  simp at hd

theorem walkList_eval (mcls : List String) (front : List Node) (s : SecSpec)
    (r : List SecSpec) (j : Nat)
    (hbody : ∀ x ∈ s.body, headerFreeB x = true)
    (hnext : ∀ s2 ∈ r, isHdrB s2.hdr = true) :
    walkList (Node.elem "div" mcls (front ++ c1Body (s :: r))) [front.length, j]
      (nextEnd r) = elemsOf s.body := by
  have hsib : siblingElemsAfter (Node.elem "div" mcls (front ++ c1Body (s :: r)))
      [front.length]
      = elemsOf s.body ++ (c1Body r).filter isElem := by
    show ((front ++ c1Body (s :: r)).drop (front.length + 1)).filter isElem
      = elemsOf s.body ++ (c1Body r).filter isElem
    rw [show front ++ c1Body (s :: r)
        = (front ++ [s.container]) ++ (s.body ++ c1Body r) by simp [c1Body],
      show front.length + 1 = (front ++ [s.container]).length by simp,
      List.drop_left, List.filter_append]
    rfl
  simp only [walkList]
  rw [show ([front.length, j] : List Nat).dropLast = [front.length] from rfl, hsib]
  cases r with
  | nil =>
    rw [show (c1Body ([] : List SecSpec)).filter isElem = [] by simp [c1Body],
      List.append_nil]
    exact takeWhile_all _ (elemsOf s.body) (fun a _ => rfl)
  | cons s2 r2 =>
    have hxne : ∀ a ∈ elemsOf s.body, a ≠ s2.container := fun a ha =>
      ne_container_of_headerFree a s2 (hbody a (List.mem_of_mem_filter ha))
        (hnext s2 (List.mem_cons_self _ _))
    rw [show (c1Body (s2 :: r2)).filter isElem
        = s2.container :: (s2.body ++ c1Body r2).filter isElem by
      rw [show c1Body (s2 :: r2) = s2.container :: (s2.body ++ c1Body r2) by
        simp [c1Body]]
      simp [List.filter_cons, show isElem s2.container = true from rfl]]
    exact takeWhile_split _ s2.container _ (by simp [nextEnd])
      (elemsOf s.body) (fun a ha => by simp [nextEnd, hxne a ha])

theorem fold_sections (mcls : List String) (BNDS : List (String × Option Node)) :
    ∀ (r : List SecSpec) (front : List Node) (acc : List Section),
    lookupAligned r BNDS →
    (∀ s ∈ r, s.title ≠ "") →
    (∀ s ∈ r, ∀ x ∈ s.body, headerFreeB x = true) →
    (∀ s ∈ r, isHdrB s.hdr = true) →
    ((hdrPathList front.length r).zip (r.map SecSpec.title)).foldl
        (sectionStep (Node.elem "div" mcls (front ++ c1Body r)) BNDS) acc
      = acc ++ r.map (fun s => buildSection s.title s.body) := by
  intro r
  induction r with
  | nil => intro front acc _ _ _ _; simp [hdrPathList]
  | cons s r ih =>
    intro front acc hlk hne hbody hhdr
    rw [hdrPathList, List.map_cons, List.zip_cons_cons, List.foldl_cons]
    have hstep : sectionStep (Node.elem "div" mcls (front ++ c1Body (s :: r))) BNDS
        acc ([front.length, s.before.length], s.title)
        = acc ++ [buildSection s.title s.body] := by
      show (if s.title = "" then acc
        else acc ++ [walkSection (Node.elem "div" mcls (front ++ c1Body (s :: r)))
          [front.length, s.before.length] (lookupEnd s.title BNDS)
          { title := s.title, id := generate_id s.title, content := [] }])
        = acc ++ [buildSection s.title s.body]
      rw [if_neg (hne s (List.mem_cons_self _ _)), hlk.1]
      simp only [walkSection]
      rw [walkList_eval mcls front s r s.before.length
        (hbody s (List.mem_cons_self _ _))
        (fun s2 h2 => hhdr s2 (List.mem_cons_of_mem _ h2))]
      rfl
    rw [hstep, c1Body_front front s r,
      show front.length + 1 + s.body.length = (front ++ s.container :: s.body).length
        from (front_grow_length front s).symm,
      ih (front ++ s.container :: s.body) (acc ++ [buildSection s.title s.body])
        hlk.2 (fun x hx => hne x (List.mem_cons_of_mem _ hx))
        (fun x hx => hbody x (List.mem_cons_of_mem _ hx))
        (fun x hx => hhdr x (List.mem_cons_of_mem _ hx))]
    simp

/-- C1 (corrected): in flat layout, when the section titles are pairwise
distinct and non-empty, the sequential processor emits exactly one section per
`h2.text-3xl` header, in document order, and the content of each section is
the fold of exactly the sibling elements of its own slice, each element
processed once. (With duplicate titles the boundaries dict is overwritten and
content duplicates, see the counterexample.) -/
theorem c1_order_slices (mcls : List String) (pre : List Node)
    (specs : List SecSpec)
    (hpre : ∀ x ∈ pre, headerFreeB x = true)
    (h1 : ∀ s ∈ specs, isHdrB s.hdr = true)
    (h2 : ∀ s ∈ specs, ∀ d ∈ descs s.hdr, isHdrB d = false)
    (h3 : ∀ s ∈ specs, ∀ x ∈ s.before, headerFreeB x = true)
    (h4 : ∀ s ∈ specs, ∀ x ∈ s.after, headerFreeB x = true)
    (h5 : ∀ s ∈ specs, ∀ x ∈ s.body, headerFreeB x = true)
    (hne : ∀ s ∈ specs, s.title ≠ "")
    (hnd : (specs.map SecSpec.title).Nodup) :
    process_sequential_content (Node.elem "div" mcls (pre ++ c1Body specs)) []
      = specs.map (fun s => buildSection s.title s.body) := by
  have hmc := pathsMatching_mc mcls pre specs hpre h1 h2 h3 h4 h5
  have habs : habsOf [] (Node.elem "div" mcls (pre ++ c1Body specs))
      = hdrPathList pre.length specs := by
    simp [habsOf, hmc]
  have htit := titlesOf_hdrPathList mcls specs pre
  have hbnd := bnds_eq mcls specs pre
  have hlk := lookupAligned_suffix specs hnd specs [] rfl
  simp only [process_sequential_content, getPath_nil]
  rw [habs, htit, hbnd,
    fold_sections mcls (bndsList specs) specs pre [] hlk hne h5 h1]
  simp

/-- Witness for the corrected C1 theorem at a concrete two-section layout. -/
theorem c1_order_slices_wit :
    process_sequential_content
        (Node.elem "div" ["leading-0"] ([] ++ c1Body [c1specA, c1specB])) []
      = [c1specA, c1specB].map (fun s => buildSection s.title s.body) :=
  c1_order_slices ["leading-0"] [] [c1specA, c1specB]
    (by decide) (by decide) (by decide) (by decide) (by decide) (by decide)
    (by decide) (by decide)

end Bluebook
